import Mathlib

/-!
Verification of the TDT inference and segmentation engine of `parakeet-rs`
(crates `melops-asr` and `melops`).

The Rust sources are shallowly embedded: machine floats (`f32`) are modelled
as exact rationals (`ℚ`), machine integers (`usize`, `u16`, ...) as `ℕ` with
explicit wrap-around where overflow matters, fallible code as `Except`/`Option`,
and strings as lists of characters (`Rust `String` is UTF-8; lengths are byte
lengths).  External collaborators (the ONNX runtime graphs and the subword
tokenizer stream) are opaque in the sources and appear here as universally
quantified state machines.
-/

set_option maxHeartbeats 1000000

namespace Parakeet

/-! ## Token-duration triples (`melops-asr/src/models/tdt/detokenizer.rs`) -/

/-- Token with timing information from the TDT decoder
(`TokenDuration` in `detokenizer.rs`). -/
structure TokenDuration where
  token_id : ℕ
  frame_index : ℕ
  duration : ℕ
deriving DecidableEq, Repr

/-! ## Chunk merging (`melops-asr/src/models/tdt/merge.rs`) -/

/-- One step of the chunk merge (`merge_two` in `merge.rs`).  The Rust code
returns `chunk1` when `chunk2` is empty, `chunk2` when `chunk1` is empty, and
otherwise appends `chunk2[i..]` where `i` is the first position whose
`frame_index` reaches `chunk1`'s cutoff; `Iterator::position` followed by the
slice `chunk2[i..]` is exactly `dropWhile` of the negated predicate. -/
def merge_two (chunk1 chunk2 : List TokenDuration) : List TokenDuration :=
  if chunk2.isEmpty then chunk1
  else
    match chunk1.getLast? with
    | none => chunk2
    | some last_token =>
      let chunk1_end_frame := last_token.frame_index + last_token.duration
      chunk1 ++ chunk2.dropWhile (fun td => td.frame_index < chunk1_end_frame)

/-- Merge of many chunks (`merge_outputs` in `merge.rs`): a left fold of
`merge_two` starting from the empty list. -/
def merge_outputs (chunks : List (List TokenDuration)) : List TokenDuration :=
  chunks.foldl merge_two []

/-! ## Audio chunking (`melops-asr/src/chunk.rs`) -/

/-- Expected sample rate (`SAMPLE_RATE` in `audio.rs`/`types.rs`). -/
def SAMPLE_RATE : ℕ := 16000

/-- Configuration for audio chunking (`ChunkConfig` in `chunk.rs`);
`duration` and `overlap` are `f32` seconds, modelled as rationals. -/
structure ChunkConfig where
  duration : ℚ
  overlap : ℚ
deriving DecidableEq, Repr

/-- Rust `f32 as usize`: truncation toward zero, negative values to 0. -/
def f32ToUsize (q : ℚ) : ℕ := q.floor.toNat

/-- Step size between chunks in seconds (`ChunkConfig::step_sec`). -/
def ChunkConfig.step_sec (c : ChunkConfig) : ℚ :=
  max (c.duration - c.overlap) 1

/-- Chunk size in samples (`ChunkConfig::chunk_samples`). -/
def ChunkConfig.chunk_samples (c : ChunkConfig) : ℕ :=
  f32ToUsize (c.duration * (SAMPLE_RATE : ℚ))

/-- Overlap size in samples (`ChunkConfig::overlap_samples`). -/
def ChunkConfig.overlap_samples (c : ChunkConfig) : ℕ :=
  f32ToUsize (c.overlap * (SAMPLE_RATE : ℚ))

/-- Step size in samples (`ChunkConfig::step_samples`); Rust
`saturating_sub` is truncated subtraction on `ℕ`. -/
def ChunkConfig.step_samples (c : ChunkConfig) : ℕ :=
  c.chunk_samples - c.overlap_samples

/-- Iterator state over chunk ranges (`ChunkRangeIter` in `chunk.rs`). -/
structure ChunkRangeIter where
  len : ℕ
  chunk_size : ℕ
  step_size : ℕ
  position : ℕ
deriving DecidableEq, Repr

/-- Create the chunk-range iterator (`ChunkConfig::iter_ranges`). -/
def ChunkConfig.iter_ranges (c : ChunkConfig) (len : ℕ) : ChunkRangeIter :=
  { len := len
    chunk_size := c.chunk_samples
    step_size := c.step_samples
    position := 0 }

/-- One call of `ChunkRangeIter::next`: yields an optional
`(range, offset_sec)` item together with the successor state.  Ranges are
`(start, stop)` pairs of sample indices. -/
def ChunkRangeIter.next (it : ChunkRangeIter) :
    Option ((ℕ × ℕ) × ℚ) × ChunkRangeIter :=
  if it.position = 0 ∧ it.len ≤ it.chunk_size then
    (some ((0, it.len), 0), { it with position := it.len })
  else if it.len ≤ it.position then
    (none, it)
  else
    let start := it.position
    let stop := min (start + it.chunk_size) it.len
    let offset_sec := (start : ℚ) / (SAMPLE_RATE : ℚ)
    (some ((start, stop), offset_sec), { it with position := it.position + it.step_size })

/-! ## WAV validation and down-mix (`melops-asr/src/types.rs`) -/

/-- Typed audio errors of `AudioBuffer::from_wav` (`error.rs`). -/
inductive AudioError where
  | invalidSampleRate (expected got : ℕ)
  | invalidChannels (channels : ℕ)
deriving DecidableEq, Repr

/-- Stereo-to-mono down-mix: `samples.chunks(2).map(|c| c.iter().sum() / 2.0)`.
A trailing lone sample is also divided by 2, as in the source. -/
def downmixStereo : List ℚ → List ℚ
  | a :: b :: rest => (a + b) / 2 :: downmixStereo rest
  | [a] => [a / 2]
  | [] => []

/-- Validating constructor `AudioBuffer::from_wav` (`types.rs`): rejects
sample rates other than 16000, channel counts of 0 or above 2, and
down-mixes two-channel input. -/
def from_wav (samples : List ℚ) (sample_rate : ℕ) (channels : ℕ) :
    Except AudioError (List ℚ) :=
  if sample_rate ≠ SAMPLE_RATE then
    .error (.invalidSampleRate SAMPLE_RATE sample_rate)
  else if channels = 0 ∨ 2 < channels then
    .error (.invalidChannels channels)
  else if channels = 2 then
    .ok (downmixStereo samples)
  else
    .ok samples

/-! ## TDT greedy decode (`melops-asr/src/models/tdt/inference.rs`)

The decoder-joint ONNX session is an external collaborator: it is modelled as
an abstract state machine `joint` over an opaque state type `σ` standing for
the two LSTM state tensors.  Its inputs are the two input states, the encoder
frame index being sliced, and the current target token; it returns the flat
logit vector and the two output states.  Quantifying over `joint` (and over
the initial states) quantifies over every encoder output tensor and every
model behaviour. -/

/-- Output of one decoder-joint run. -/
structure JointOut (σ : Type) where
  logits : List ℚ
  output_states_1 : σ
  output_states_2 : σ

/-- Errors of the decode loop (`ModelError` in `error.rs`); `shapeMismatch`
models the `ndarray` panic when the flat logit vector is shorter than the
`0..blank_id + 1` text slice. -/
inductive DecodeError where
  | shapeMismatch
  | emptyLogits
  | durationIndexOutOfBounds (index : ℕ)
deriving DecidableEq, Repr

/-- First-maximum argmax (`ndarray_stats::QuantileExt::argmax`): strictly
greater elements replace the running maximum, so ties keep the smallest
index; the running best starts at the head. -/
def argmaxAux : ℕ → ℕ → ℚ → List ℚ → ℕ
  | _, best_idx, _, [] => best_idx
  | i, best_idx, best_val, x :: rest =>
    if best_val < x then argmaxAux (i + 1) i x rest
    else argmaxAux (i + 1) best_idx best_val rest

/-- Argmax over a list of logits; `none` on the empty list (the Rust call
returns an error there). -/
def argmaxIdx : List ℚ → Option ℕ
  | [] => none
  | x :: rest => some (argmaxAux 1 0 x rest)

/-- Decoder state threaded through `greedy_decode`'s loops. -/
structure DecodeState (σ : Type) where
  tokens : List TokenDuration
  frame_index : ℕ
  states_1 : σ
  states_2 : σ
  target : ℕ
deriving DecidableEq

/-- Splitting of the flat logit vector and the duration lookup of one inner
iteration: `token_id = argmax(logits[0..blank_id+1])`,
`duration_idx = argmax(logits[blank_id+1..])`, `skip = durations[duration_idx]`
(`DurationIndexOutOfBounds` when absent). -/
def jointDecision (blank_id : ℕ) (durations : List ℕ) (logits : List ℚ) :
    Except DecodeError (ℕ × ℕ) :=
  if logits.length < blank_id + 1 then .error .shapeMismatch
  else
    match argmaxIdx (logits.take (blank_id + 1)) with
    | none => .error .emptyLogits
    | some token_id =>
      match argmaxIdx (logits.drop (blank_id + 1)) with
      | none => .error .emptyLogits
      | some duration_idx =>
        match durations.get? duration_idx with
        | none => .error (.durationIndexOutOfBounds duration_idx)
        | some skip => .ok (token_id, skip)

/-- `MAX_SYMBOLS_PER_STEP` in `greedy_decode`. -/
def MAX_SYMBOLS_PER_STEP : ℕ := 10

/-- The state change of one inner iteration given the joint's decision: on a
non-blank token the LSTM states, token list and target are updated; the
frame index then advances to `min(encoded_length, frame_index + skip)`. -/
def applyDecision {σ : Type} (out : JointOut σ) (blank_id token_id skip : ℕ)
    (encoded_length : ℕ) (st : DecodeState σ) : DecodeState σ :=
  let st1 :=
    if token_id ≠ blank_id then
      { st with
        states_1 := out.output_states_1
        states_2 := out.output_states_2
        tokens := st.tokens ++ [⟨token_id, st.frame_index, skip⟩]
        target := token_id }
    else st
  { st1 with frame_index := min encoded_length (st1.frame_index + skip) }

/-- The label loop (the `for _ in 0..max_symbols_per_step` loop inside the
labelled block): a non-zero skip breaks out (`true`), exhausting the
iteration budget returns `false`. -/
def innerLoop {σ : Type} (joint : σ → σ → ℕ → ℕ → JointOut σ) (blank_id : ℕ)
    (durations : List ℕ) (encoded_length : ℕ) :
    ℕ → DecodeState σ → Except DecodeError (DecodeState σ × Bool)
  | 0, st => .ok (st, false)
  | k + 1, st =>
    let out := joint st.states_1 st.states_2 st.frame_index st.target
    match jointDecision blank_id durations out.logits with
    | .error e => .error e
    | .ok (token_id, skip) =>
      let st2 := applyDecision out blank_id token_id skip encoded_length st
      if skip ≠ 0 then .ok (st2, true)
      else innerLoop joint blank_id durations encoded_length k st2

/-- One iteration of the outer `while` loop: run the label loop; when it
exhausted `MAX_SYMBOLS_PER_STEP` without a positive skip, force
`frame_index + 1`. -/
def outerStep {σ : Type} (joint : σ → σ → ℕ → ℕ → JointOut σ) (blank_id : ℕ)
    (durations : List ℕ) (encoded_length : ℕ) (st : DecodeState σ) :
    Except DecodeError (DecodeState σ) :=
  match innerLoop joint blank_id durations encoded_length MAX_SYMBOLS_PER_STEP st with
  | .error e => .error e
  | .ok (st', true) => .ok st'
  | .ok (st', false) => .ok { st' with frame_index := st'.frame_index + 1 }

/-- The outer loop bound `encoded_length - 1` as computed on `usize`:
wrapping subtraction modulo `2^64` (for `encoded_length = 0` it wraps to
`2^64 - 1` instead of making the loop run zero times). -/
def loopBound (encoded_length : ℕ) : ℕ := (encoded_length + 2 ^ 64 - 1) % 2 ^ 64

/-- The outer `while frame_index < encoded_length - 1` loop, embedded with
fuel; `none` means the fuel ran out while the Rust loop would still be
running. -/
def outerLoop {σ : Type} (joint : σ → σ → ℕ → ℕ → JointOut σ) (blank_id : ℕ)
    (durations : List ℕ) (encoded_length : ℕ) :
    ℕ → DecodeState σ → Option (Except DecodeError (List TokenDuration))
  | 0, st =>
    if st.frame_index < loopBound encoded_length then none
    else some (.ok st.tokens)
  | fuel + 1, st =>
    if st.frame_index < loopBound encoded_length then
      match outerStep joint blank_id durations encoded_length st with
      | .error e => some (.error e)
      | .ok st' => outerLoop joint blank_id durations encoded_length fuel st'
    else some (.ok st.tokens)

/-- Initial decoder state: empty token list, frame 0, zeroed LSTM states
(abstract values `s1`, `s2`), target seeded with `blank_id`. -/
def initDecodeState {σ : Type} (s1 s2 : σ) (blank_id : ℕ) : DecodeState σ :=
  ⟨[], 0, s1, s2, blank_id⟩

/-- `TdtModel::greedy_decode`, with fuel `encoded_length` for the outer loop
(sufficient whenever `encoded_length ≥ 1`, see the termination theorem). -/
def greedy_decode {σ : Type} (joint : σ → σ → ℕ → ℕ → JointOut σ) (s1 s2 : σ)
    (blank_id : ℕ) (durations : List ℕ) (encoded_length : ℕ) :
    Option (Except DecodeError (List TokenDuration)) :=
  outerLoop joint blank_id durations encoded_length encoded_length
    (initDecodeState s1 s2 blank_id)

/-- The duration table of the TDT model (`TdtModel::new` in `core.rs`). -/
def TDT_DURATIONS : List ℕ := [0, 1, 2, 3, 4]

/-! ## Segment builder (`melops-asr/src/models/tdt/asr_impl.rs`) -/

/-- Byte length of a Rust string modelled as a character list
(`String::len` counts UTF-8 bytes). -/
def rstrLen (t : List Char) : ℕ := (t.map Char.utf8Size).sum

/-- A text segment with timestamps in seconds (`Segment` used by
`melops_asr`; the record itself is declared outside the provided sources, its
fields `text`, `start`, `end` are fixed by every use site and by the spec's
data model; `end` is a reserved word in Lean, so the field is named `stop`). -/
structure Segment where
  text : List Char
  start : ℚ
  stop : ℚ
deriving DecidableEq, Repr

/-- Modelled from the spec: `MelSpectrogram::frame_to_secs` is called by
`TdtModel::frame_to_secs` but its body is not among the provided sources; the
spec defines `frame_to_sec(f) = f · subsampling · hop / sample_rate`. -/
def mel_frame_to_secs (hop sample_rate : ℕ) (frame subsampling : ℕ) : ℚ :=
  ((frame * subsampling * hop : ℕ) : ℚ) / (sample_rate : ℚ)

/-- `TdtModel::frame_to_secs`: the TDT mel configuration has
`hop_length = 160`, `sample_rate = 16000`, and `SUBSAMPLING_FACTOR = 8`. -/
def frame_to_secs (frame : ℕ) : ℚ := mel_frame_to_secs 160 16000 frame 8

/-- `TdtModel::to_segments`: drive the streaming detokenizer (an external
collaborator, modelled as a state machine `step` over an opaque state `σ`
with error type `ε`) over the token ids in order; a step yielding text emits
one timestamped segment, a pending step emits nothing, an error aborts. -/
def to_segments {σ ε : Type} (step : σ → ℕ → Except ε (σ × Option (List Char))) :
    σ → List TokenDuration → Except ε (List Segment)
  | _, [] => .ok []
  | s, td :: rest =>
    match step s td.token_id with
    | .error e => .error e
    | .ok (s', none) => to_segments step s' rest
    | .ok (s', some text) =>
      match to_segments step s' rest with
      | .error e => .error e
      | .ok segs =>
        .ok (⟨text, frame_to_secs td.frame_index,
              frame_to_secs (td.frame_index + td.duration)⟩ :: segs)

/-- The raw outputs of the detokenizer stream over a token list: the
`Option` emitted at each step, in order (first error aborts). -/
def streamOutputs {σ ε : Type} (step : σ → ℕ → Except ε (σ × Option (List Char))) :
    σ → List ℕ → Except ε (List (Option (List Char)))
  | _, [] => .ok []
  | s, t :: rest =>
    match step s t with
    | .error e => .error e
    | .ok (s', o) => (streamOutputs step s' rest).map (fun os => o :: os)

/-- Definition following the words of claim C6 (to be compared with
`to_segments`): pair each token with the stream's output for it; each
`some text` yields exactly one segment timed at `0.08 · frame_index` to
`0.08 · (frame_index + duration)` seconds, each `none` yields no segment. -/
def claimC6Segments {σ ε : Type} (step : σ → ℕ → Except ε (σ × Option (List Char)))
    (s : σ) (tds : List TokenDuration) : Except ε (List Segment) :=
  (streamOutputs step s (tds.map TokenDuration.token_id)).map (fun os =>
    (tds.zip os).filterMap (fun p =>
      p.2.map (fun text =>
        ⟨text, (2 / 25 : ℚ) * (p.1.frame_index : ℚ),
         (2 / 25 : ℚ) * ((p.1.frame_index : ℚ) + (p.1.duration : ℚ))⟩)))

/-! ## DP regrouper (`melops/src/segment.rs`)

The only non-rational operation of the regrouper is the reading-speed term of
`Segmenter::segment_penalty`, `2f32.powf(chars / duration - target_cps) * 4.0`,
a transcendental `f32` function with no exact rational counterpart.  The whole
of `segment_penalty` is therefore a parameter
`segPenalty : ℚ → ℕ → Option ℚ` (duration and character count to penalty),
where `some p` stands for a finite `f32` penalty value and `none` for a
non-finite one: `+∞` from `chars / 0.0` at zero duration or from `powf`
overflow at high reading speed, or NaN from `0.0 / 0.0`.  A non-finite
penalty makes the `f32` relaxation total non-finite, and `total < dp[j]` is
then false against every `dp[j]` including `f32::INFINITY` — exactly the
behaviour of the `none` case below.  The claims are quantified over every
such function. -/

/-- Rust `str::ends_with` with a char-set pattern: does the last character
belong to the set?  (Empty strings match nothing.) -/
def endsWithAny (t : List Char) (cs : List Char) : Bool :=
  match t.getLast? with
  | some c => cs.contains c
  | none => false

/-- Rust `str::starts_with(' ')`. -/
def startsWithSpace (t : List Char) : Bool :=
  match t.head? with
  | some c => c = ' '
  | none => false

/-- Rust `str::strip_prefix(' ').unwrap_or(&s)`: drop one leading space when
present. -/
def stripLeadingSpace (t : List Char) : List Char :=
  match t with
  | c :: rest => if c = ' ' then rest else t
  | [] => t

/-- Split point type between segments (`SplitType` in `segment.rs`). -/
inductive SplitType where
  | boundary
  | sentenceEnd
  | softBreak
  | wordBoundary (gap : ℚ)
deriving DecidableEq, Repr

/-- Graph node at a split position (`Node` in `segment.rs`). -/
structure Node where
  index : ℕ
  split_type : SplitType
deriving DecidableEq, Repr

/-- `Node::new`: classify the split between `left` and `right`; `none` for
invalid mid-word splits. -/
def Node.new (index : ℕ) (left : Segment) (right : Option Segment) : Option Node :=
  if endsWithAny left.text ['.', '!', '?'] then
    some ⟨index, .sentenceEnd⟩
  else if endsWithAny left.text [',', ':', ';', '-'] then
    some ⟨index, .softBreak⟩
  else
    match right with
    | some r =>
      if startsWithSpace r.text then
        some ⟨index, .wordBoundary (r.start - left.stop)⟩
      else none
    | none => none

/-- Indexing `segments[i]` (in the source every such access is in range; out
of range yields a junk default here). -/
def segD (segments : List Segment) (i : ℕ) : Segment := segments.getD i ⟨[], 0, 0⟩

/-- `Node::from_segments`: boundary node at 0, interior nodes via `Node::new`
for `i` in `1..n`, boundary node at `n`. -/
def Node.from_segments (segments : List Segment) : List Node :=
  ⟨0, .boundary⟩ ::
    ((List.range' 1 (segments.length - 1)).filterMap (fun i =>
      Node.new i (segD segments (i - 1)) (segments.get? i)))
    ++ [⟨segments.length, .boundary⟩]

/-- `Node::base_penalty`. -/
def Node.base_penalty (nd : Node) : ℚ :=
  match nd.split_type with
  | .boundary => 0
  | .sentenceEnd => 0
  | .softBreak => 40
  | .wordBoundary gap => if 3 / 2 ≤ gap then 25 else 100 - gap * 50

/-- Segment regrouping configuration (`Segmenter` in `segment.rs`). -/
structure Segmenter where
  max_gap : ℚ
  target_duration : ℚ
  target_chars : ℚ
  max_duration : ℚ
  max_chars : ℕ
  target_cps : ℚ
deriving DecidableEq, Repr

/-- The `Segmenter::COMFORTABLE` preset. -/
def Segmenter.COMFORTABLE : Segmenter :=
  { max_gap := 3 / 2
    target_duration := 3
    target_chars := 42
    max_duration := 7
    max_chars := 84
    target_cps := 22 }

/-- `build_char_prefix_sum`: prefix sums of the byte lengths of the segment
texts, starting at 0 (length `n + 1`). -/
def build_char_prefix_sum (segments : List Segment) : List ℕ :=
  segments.scanl (fun acc s => acc + rstrLen s.text) 0

/-- Comparison `total < dp[j]` on `f32` costs where `none` plays the role of
`f32::INFINITY` (`∞ < ∞` is false, and a finite total always beats `∞`). -/
def oLt (a b : Option ℚ) : Bool :=
  match a, b with
  | some x, some y => decide (x < y)
  | some _, none => true
  | none, _ => false

/-- Body of the inner relaxation loop of `Segmenter::find_shortest_path` for
one candidate edge `(i, j)`: compute the edge's duration and character count,
skip the edge if it violates `max_duration`/`max_chars`, otherwise relax
`dp[j]`/`parent[j]` when the new total is smaller. -/
def fspStep (cfg : Segmenter) (segPenalty : ℚ → ℕ → Option ℚ)
    (segments : List Segment)
    (prefixSums : List ℕ) (jpos : ℕ) (jn : Node)
    (acc : List (Option ℚ) × List (Option ℕ)) (ipair : ℕ × Node) :
    List (Option ℚ) × List (Option ℕ) :=
  let dp := acc.1
  let parent := acc.2
  let ipos := ipair.1
  let inode := ipair.2
  let duration := (segD segments (jn.index - 1)).stop - (segD segments inode.index).start
  let chars := prefixSums.getD jn.index 0 - prefixSums.getD inode.index 0
  if cfg.max_duration < duration ∨ cfg.max_chars < chars then acc
  else
    let penalty := (segPenalty duration chars).map (fun p => jn.base_penalty + p)
    let total :=
      match dp.getD ipos none, penalty with
      | some d, some p => some (d + p)
      | _, _ => none
    if oLt total (dp.getD jpos none) then
      (dp.set jpos total, parent.set jpos (some ipos))
    else acc

/-- `Segmenter::find_shortest_path`: `dp[0] = 0`, all other entries `∞`
(`none`); for every node `j` in order, relax over the nodes before the first
one whose `index` reaches `j.index` (the Rust inner loop `break`s there,
which is a `takeWhile` over the enumerated node list). -/
def find_shortest_path (cfg : Segmenter) (segPenalty : ℚ → ℕ → Option ℚ)
    (nodes : List Node) (segments : List Segment) (prefixSums : List ℕ) :
    List (Option ℚ) × List (Option ℕ) :=
  let dp0 : List (Option ℚ) := (List.replicate nodes.length none).set 0 (some 0)
  let parent0 : List (Option ℕ) := List.replicate nodes.length none
  nodes.enum.foldl
    (fun acc jp =>
      (nodes.enum.takeWhile (fun ip => ip.2.index < jp.2.index)).foldl
        (fspStep cfg segPenalty segments prefixSums jp.1 jp.2) acc)
    (dp0, parent0)

/-- `merge_segments`: `none` on the empty list, a single segment unchanged,
otherwise concatenate the member texts (the first one with its leading space
stripped) and span from the first member's start to the last member's end. -/
def merge_segments (segments : List Segment) : Option Segment :=
  match segments with
  | [] => none
  | [single] => some single
  | first :: next :: rest =>
    some ⟨stripLeadingSpace first.text ++ ((next :: rest).map Segment.text).flatten,
          first.start, ((next :: rest).getLastD ⟨[], 0, 0⟩).stop⟩

/-- Loop body of `Segmenter::backtrack_path` with explicit fuel: follow the
parent pointer of `v`, emit the merge of `segments[i..j]`, continue from the
parent.  Parents produced by the DP strictly decrease, so fuel
`nodes.length` always suffices for them. -/
def backtrackAux (nodes : List Node) (parent : List (Option ℕ))
    (segments : List Segment) :
    ℕ → ℕ → List Segment → List Segment
  | 0, _, acc => acc
  | fuel + 1, v, acc =>
    match parent.getD v none with
    | none => acc
    | some u =>
      let i := (nodes.getD u ⟨0, .boundary⟩).index
      let j := (nodes.getD v ⟨0, .boundary⟩).index
      let acc' :=
        match merge_segments ((segments.drop i).take (j - i)) with
        | some s => acc ++ [s]
        | none => acc
      backtrackAux nodes parent segments fuel u acc'

/-- `Segmenter::backtrack_path`: walk back from the last node, then reverse
the collected path. -/
def backtrack_path (nodes : List Node) (parent : List (Option ℕ))
    (segments : List Segment) : List Segment :=
  (backtrackAux nodes parent segments nodes.length (nodes.length - 1) []).reverse

/-- `Segmenter::regroup_chunk`: build nodes and prefix sums, run the DP,
backtrack. -/
def Segmenter.regroup_chunk (cfg : Segmenter) (segPenalty : ℚ → ℕ → Option ℚ)
    (segments : List Segment) : List Segment :=
  if segments.isEmpty then []
  else
    let nodes := Node.from_segments segments
    let prefixSums := build_char_prefix_sum segments
    let pr := find_shortest_path cfg segPenalty nodes segments prefixSums
    backtrack_path nodes pr.2 segments

/-- The pre-splitting pass of `Segmenter::regroup`: cut the segment list
into index ranges at every inter-segment silence gap exceeding `max_gap`. -/
def gapSplitRanges (cfg : Segmenter) (segments : List Segment) : List (ℕ × ℕ) :=
  let fin := (List.range' 1 (segments.length - 1)).foldl
    (fun st j =>
      if cfg.max_gap < (segD segments j).start - (segD segments (j - 1)).stop then
        (j, st.2 ++ [(st.1, j)])
      else st)
    (0, ([] : List (ℕ × ℕ)))
  fin.2 ++ [(fin.1, segments.length)]

/-- `Segmenter::regroup`: empty input gives an empty output; otherwise
regroup each pre-split chunk independently and concatenate. -/
def Segmenter.regroup (cfg : Segmenter) (segPenalty : ℚ → ℕ → Option ℚ)
    (segments : List Segment) : List Segment :=
  if segments.isEmpty then []
  else
    ((gapSplitRanges cfg segments).map
      (fun r => cfg.regroup_chunk segPenalty ((segments.drop r.1).take (r.2 - r.1)))).flatten

/-- Total byte length of the texts of a segment list. -/
def charSum (segments : List Segment) : ℕ :=
  (segments.map (fun s => rstrLen s.text)).sum

/-- An admitted DP edge from node position `u` to node position `v`: both
positions hold nodes, `u`'s split index is before `v`'s, and the spanned
duration and character count are within the segmenter's hard limits (the
conditions under which `find_shortest_path` records a parent pointer). -/
def AdmEdge (cfg : Segmenter) (nodes : List Node) (segments : List Segment)
    (prefixSums : List ℕ) (u v : ℕ) : Prop :=
  ∃ nu nv, nodes[u]? = some nu ∧ nodes[v]? = some nv ∧
    nu.index < nv.index ∧
    (segD segments (nv.index - 1)).stop - (segD segments nu.index).start ≤
      cfg.max_duration ∧
    prefixSums.getD nv.index 0 - prefixSums.getD nu.index 0 ≤ cfg.max_chars

/-! ## Concrete instances used by witnesses and counterexamples -/

/-- A decoder-joint oracle returning the same logits at every call. -/
def constJoint (logits : List ℚ) : Unit → Unit → ℕ → ℕ → JointOut Unit :=
  fun _ _ _ _ => ⟨logits, (), ()⟩

/-- Oracle whose argmaxes pick the blank token (`blank_id = 1`) with skip 1. -/
def blankJoint : Unit → Unit → ℕ → ℕ → JointOut Unit :=
  constJoint [0, 5, 0, 9, 0, 0, 0]

/-- Oracle whose argmaxes pick token 0 (non-blank for `blank_id = 1`) with
skip 1. -/
def tokenJoint : Unit → Unit → ℕ → ℕ → JointOut Unit :=
  constJoint [5, 0, 0, 9, 0, 0, 0]

/-- The cutoff frame of a chunk: `last.frame_index + last.duration`, or 0 for
an empty chunk (§4.5 of the spec). -/
def chunkEnd (chunk : List TokenDuration) : ℕ :=
  match chunk.getLast? with
  | none => 0
  | some td => td.frame_index + td.duration

/-- Two segments whose boundary is mid-word and whose total span exceeds
`Segmenter.COMFORTABLE.max_duration`. -/
def cexMidwordLong : List Segment :=
  [⟨['a', 'b'], 0, 5⟩, ⟨['c', 'd'], 5, 10⟩]

/-- A trivial segment-penalty function (finite at every input). -/
def zeroPenalty : ℚ → ℕ → Option ℚ := fun _ _ => some 0

/-- Two mid-word segments within all hard limits of the comfortable preset. -/
def okMidword : List Segment :=
  [⟨['a', 'b'], 0, 2⟩, ⟨['c', 'd'], 2, 4⟩]

/-- A trivial detokenizer stream: state counts steps, every step emits the
token id as a one-character text. -/
def countStep : ℕ → ℕ → Except Unit (ℕ × Option (List Char)) :=
  fun n t => .ok (n + 1, if n % 2 = 0 then some [Char.ofNat (65 + t)] else none)

/-- The decode-loop invariant: every emitted token sits at or before the
current frame, frame indices are non-decreasing in emission order, and no
emitted token is the blank. -/
def DecodeInv {σ : Type} (blank_id : ℕ) (st : DecodeState σ) : Prop :=
  (∀ td ∈ st.tokens, td.frame_index ≤ st.frame_index) ∧
  List.Chain' (fun a b : TokenDuration => a.frame_index ≤ b.frame_index) st.tokens ∧
  (∀ td ∈ st.tokens, td.token_id ≠ blank_id)

/-! ## Helper lemmas for the merge step -/

theorem merge_two_nil_left (B : List TokenDuration) : merge_two [] B = B := by
  cases B <;> simp [merge_two]

theorem merge_two_nil_right (A : List TokenDuration) : merge_two A [] = A := by
  simp [merge_two]

theorem merge_two_eq_dropWhile (A B : List TokenDuration) (la : TokenDuration)
    (hA : A.getLast? = some la) (hB : B ≠ []) :
    merge_two A B =
      A ++ B.dropWhile (fun td => td.frame_index < la.frame_index + la.duration) := by
  simp only [merge_two, List.isEmpty_eq_true, hB, if_false, hA]

theorem dropWhile_dropWhile_of_imp {α : Type} (p q : α → Bool) (l : List α)
    (h : ∀ x ∈ l, p x = true → q x = true) :
    (l.dropWhile p).dropWhile q = l.dropWhile q := by
  induction l with
  | nil => rfl
  | cons x t ih =>
    by_cases hp : p x = true
    · rw [List.dropWhile_cons_of_pos hp, List.dropWhile_cons_of_pos (h x (by simp) hp)]
      exact ih (fun y hy hpy => h y (by simp [hy]) hpy)
    · rw [List.dropWhile_cons_of_neg hp]

theorem dropWhile_ne_nil_getLast? {α : Type} (p : α → Bool) (l : List α)
    (h : l.dropWhile p ≠ []) : (l.dropWhile p).getLast? = l.getLast? := by
  obtain ⟨pre, hpre⟩ := List.dropWhile_suffix p (l := l)
  conv_rhs => rw [← hpre]
  exact (List.getLast?_append_of_ne_nil pre h).symm

theorem dropWhile_eq_filter_of_sorted (c : ℕ) (l : List TokenDuration)
    (h : l.Pairwise (fun a b => a.frame_index ≤ b.frame_index)) :
    l.dropWhile (fun td => td.frame_index < c) =
      l.filter (fun td => c ≤ td.frame_index) := by
  induction l with
  | nil => rfl
  | cons x t ih =>
    rw [List.pairwise_cons] at h
    by_cases hx : x.frame_index < c
    · rw [List.dropWhile_cons_of_pos (by simpa using hx)]
      rw [List.filter_cons_of_neg (by simpa using hx)]
      exact ih h.2
    · rw [List.dropWhile_cons_of_neg (by simpa using hx)]
      rw [List.filter_cons_of_pos (by simpa using Nat.le_of_not_lt hx)]
      congr 1
      exact (List.filter_eq_self.mpr fun a ha => by
        simpa using Nat.le_trans (Nat.le_of_not_lt hx) (h.1 a ha)).symm

/-! ## C4: two-chunk merge characterization -/

/-- Claim C4 as stated is refuted at this input: the code keeps the whole
suffix of `B` from the first entry reaching the cutoff, so a later entry
whose `frame_index` is below the cutoff survives, while the claim's filter
would drop it. -/
theorem merge_two_filter_cex :
    ¬ (merge_two [⟨0, 0, 10⟩] [⟨1, 20, 0⟩, ⟨2, 5, 0⟩] =
        [⟨0, 0, 10⟩] ++
          [(⟨1, 20, 0⟩ : TokenDuration), ⟨2, 5, 0⟩].filter
            (fun td => 10 ≤ td.frame_index)) := by
  decide

/-- Claim C4, amended: the empty-chunk cases hold verbatim, and when `B`'s
frame indices are non-decreasing (the invariant the decoder guarantees),
merging `A` then `B` yields `A` followed by exactly those entries of `B`
whose `frame_index` reaches `cutoff = A.last.frame_index + A.last.duration`. -/
theorem merge_two_spec (A B : List TokenDuration) :
    (A = [] → merge_two A B = B) ∧
    (B = [] → merge_two A B = A) ∧
    (∀ la, A.getLast? = some la →
      List.Chain' (fun a b : TokenDuration => a.frame_index ≤ b.frame_index) B →
      merge_two A B =
        A ++ B.filter (fun td => la.frame_index + la.duration ≤ td.frame_index)) := by
  refine ⟨fun hA => hA ▸ merge_two_nil_left B, fun hB => hB ▸ merge_two_nil_right A, ?_⟩
  intro la hla hchain
  rcases eq_or_ne B [] with hB | hB
  · subst hB; simpa using merge_two_nil_right A
  · haveI : IsTrans TokenDuration (fun a b => a.frame_index ≤ b.frame_index) :=
      ⟨fun _ _ _ => Nat.le_trans⟩
    rw [merge_two_eq_dropWhile A B la hla hB]
    rw [dropWhile_eq_filter_of_sorted _ _ (List.chain'_iff_pairwise.mp hchain)]

/-- Witness for `merge_two_spec` at the `merges_at_boundary` test data. -/
theorem merge_two_spec_witness :
    merge_two [⟨1, 0, 10⟩] [⟨1, 10, 10⟩, ⟨2, 20, 5⟩] =
      [⟨1, 0, 10⟩] ++
        [(⟨1, 10, 10⟩ : TokenDuration), ⟨2, 20, 5⟩].filter
          (fun td => 10 ≤ td.frame_index) := by
  have h := (merge_two_spec [⟨1, 0, 10⟩] [⟨1, 10, 10⟩, ⟨2, 20, 5⟩]).2.2
    ⟨1, 0, 10⟩ (by decide) (List.chain'_pair.mpr (by decide))
  simpa using h

/-! ## C3: associativity of the merge step -/

/-- Claim C3 as stated is refuted: `merge_two` is not associative.  With
`A = [(0,0,4)]`, `B = [(1,3,4)]`, `C = [(2,5,0)]` (durations all within the
TDT duration set and frame indices non-decreasing), `B` is entirely below
`A`'s cutoff 4 while `C`'s entry lies in `[4, 7)`, between the two cutoffs. -/
theorem merge_two_assoc_cex :
    merge_two (merge_two [⟨0, 0, 4⟩] [⟨1, 3, 4⟩]) [⟨2, 5, 0⟩] ≠
      merge_two [⟨0, 0, 4⟩] (merge_two [⟨1, 3, 4⟩] [⟨2, 5, 0⟩]) := by
  decide

/-- Claim C3, amended: the two-chunk merge is associative whenever one of the
chunks is empty, or some entry of `B` survives `A`'s cutoff, or every entry
of `C` at or beyond `A`'s cutoff is also at or beyond `B`'s cutoff (in
particular for sequential chunk outputs). -/
theorem merge_two_assoc (A B C : List TokenDuration)
    (h : A = [] ∨ B = [] ∨ C = [] ∨
      (∃ b ∈ B, chunkEnd A ≤ b.frame_index) ∨
      (∀ c ∈ C, chunkEnd A ≤ c.frame_index → chunkEnd B ≤ c.frame_index)) :
    merge_two (merge_two A B) C = merge_two A (merge_two B C) := by
  rcases eq_or_ne A [] with hA | hA
  · subst hA; rw [merge_two_nil_left, merge_two_nil_left]
  rcases eq_or_ne B [] with hB | hB
  · subst hB; rw [merge_two_nil_right, merge_two_nil_left]
  rcases eq_or_ne C [] with hC | hC
  · subst hC; rw [merge_two_nil_right, merge_two_nil_right]
  obtain ⟨la, hla⟩ := List.getLast?_isSome.mpr hA |> Option.isSome_iff_exists.mp
  obtain ⟨lb, hlb⟩ := List.getLast?_isSome.mpr hB |> Option.isSome_iff_exists.mp
  have hcutA : chunkEnd A = la.frame_index + la.duration := by
    simp [chunkEnd, hla]
  have hcutB : chunkEnd B = lb.frame_index + lb.duration := by
    simp [chunkEnd, hlb]
  set pA : TokenDuration → Bool :=
    fun td => td.frame_index < la.frame_index + la.duration with hpA
  set pB : TokenDuration → Bool :=
    fun td => td.frame_index < lb.frame_index + lb.duration with hpB
  have hAB : merge_two A B = A ++ B.dropWhile pA := merge_two_eq_dropWhile A B la hla hB
  have hBC : merge_two B C = B ++ C.dropWhile pB := merge_two_eq_dropWhile B C lb hlb hC
  by_cases hBdrop : B.dropWhile pA = []
  · -- no entry of B survives A's cutoff
    have himp : ∀ c ∈ C, pB c = true → pA c = true := by
      rcases h with h | h | h | h | h
      · exact absurd h hA
      · exact absurd h hB
      · exact absurd h hC
      · obtain ⟨b, hbB, hble⟩ := h
        have := (List.dropWhile_eq_nil_iff.mp hBdrop) b hbB
        rw [hcutA] at hble
        simp only [hpA, decide_eq_true_eq] at this
        omega
      · intro c hc hpBc
        simp only [hpB, decide_eq_true_eq] at hpBc
        simp only [hpA, decide_eq_true_eq]
        by_contra hge
        have := h c hc (by rw [hcutA]; omega)
        rw [hcutB] at this
        omega
    have hABA : merge_two A B = A := by rw [hAB, hBdrop, List.append_nil]
    rw [hABA]
    rw [hBC]
    have hBCne : B ++ C.dropWhile pB ≠ [] := by simp [hB]
    rw [merge_two_eq_dropWhile A _ la hla hBCne]
    rw [List.dropWhile_append, hBdrop]
    simp only [List.isEmpty_nil, if_true]
    rcases eq_or_ne (C.dropWhile pA) [] with hCd | hCd
    · rw [dropWhile_dropWhile_of_imp pB pA C himp, hCd, List.append_nil]
      rw [merge_two_eq_dropWhile A C la hla hC, hCd, List.append_nil]
    · rw [dropWhile_dropWhile_of_imp pB pA C himp]
      rw [merge_two_eq_dropWhile A C la hla hC]
  · -- some entry of B survives A's cutoff
    have hABlast : (merge_two A B).getLast? = some lb := by
      rw [hAB, List.getLast?_append_of_ne_nil _ hBdrop,
        dropWhile_ne_nil_getLast? pA B hBdrop, hlb]
    rw [merge_two_eq_dropWhile _ C lb hABlast hC, hAB]
    have hBCne : B ++ C.dropWhile pB ≠ [] := by simp [hB]
    rw [hBC, merge_two_eq_dropWhile A _ la hla hBCne]
    rw [List.dropWhile_append]
    have : (B.dropWhile pA).isEmpty = false := by
      simpa [List.isEmpty_iff] using hBdrop
    rw [this]
    simp [List.append_assoc]

/-- Witness for `merge_two_assoc` at the E4-style chunk data (all three
chunks non-empty, discharged through the surviving-entry disjunct). -/
theorem merge_two_assoc_witness :
    merge_two (merge_two [⟨1, 0, 10⟩, ⟨2, 10, 10⟩] [⟨2, 15, 5⟩, ⟨3, 20, 5⟩])
        [⟨4, 25, 5⟩] =
      merge_two [⟨1, 0, 10⟩, ⟨2, 10, 10⟩]
        (merge_two [⟨2, 15, 5⟩, ⟨3, 20, 5⟩] [⟨4, 25, 5⟩]) :=
  merge_two_assoc [⟨1, 0, 10⟩, ⟨2, 10, 10⟩] [⟨2, 15, 5⟩, ⟨3, 20, 5⟩] [⟨4, 25, 5⟩]
    (Or.inr (Or.inr (Or.inr (Or.inl ⟨⟨3, 20, 5⟩, by decide, by decide⟩))))

/-! ## C5: chunk step size -/

/-- Claim C5 is contradicted by the code: `ChunkConfig::step_samples` is a
saturating subtraction with floor 0, not `max(1, …)`.  For
`duration = 1 s, overlap = 2 s` the step is 0 (the claimed formula gives 1),
and on 20000 samples the iterator state is a fixpoint of `next`, so
`iter_ranges` yields the window `0..16000` with offset 0 forever instead of
a finite sequence. -/
theorem step_samples_zero_iter_diverges :
    (ChunkConfig.mk 1 2).step_samples = 0 ∧
    ((ChunkConfig.mk 1 2).iter_ranges 20000).next =
      (some ((0, 16000), 0), (ChunkConfig.mk 1 2).iter_ranges 20000) ∧
    (∀ k : ℕ,
      ((fun it : ChunkRangeIter => it.next.2)^[k]
          ((ChunkConfig.mk 1 2).iter_ranges 20000)).next.1 = some ((0, 16000), 0)) := by
  have hchunk : (ChunkConfig.mk 1 2).chunk_samples = 16000 := by
    simp only [ChunkConfig.chunk_samples, f32ToUsize, SAMPLE_RATE]
    norm_num
    simp [Rat.floor]
  have hoverlap : (ChunkConfig.mk 1 2).overlap_samples = 32000 := by
    simp only [ChunkConfig.overlap_samples, f32ToUsize, SAMPLE_RATE]
    norm_num
    simp [Rat.floor]
  have hstep : (ChunkConfig.mk 1 2).step_samples = 0 := by
    simp [ChunkConfig.step_samples, hchunk, hoverlap]
  have hit : (ChunkConfig.mk 1 2).iter_ranges 20000 =
      ⟨20000, 16000, 0, 0⟩ := by
    simp [ChunkConfig.iter_ranges, hchunk, hstep]
  have hnext : (⟨20000, 16000, 0, 0⟩ : ChunkRangeIter).next =
      (some ((0, 16000), 0), ⟨20000, 16000, 0, 0⟩) := by
    simp [ChunkRangeIter.next]
  have hfix : (fun it : ChunkRangeIter => it.next.2)
      ((ChunkConfig.mk 1 2).iter_ranges 20000) =
      (ChunkConfig.mk 1 2).iter_ranges 20000 := by
    simp [hit, hnext]
  refine ⟨hstep, by rw [hit, hnext], fun k => ?_⟩
  rw [Function.iterate_fixed hfix k, hit, hnext]

/-! ## C9: WAV validation and down-mix -/

theorem downmixStereo_get? (samples : List ℚ) (i : ℕ) (h : 2 * i + 1 < samples.length) :
    (downmixStereo samples).get? i =
      some ((samples.getD (2 * i) 0 + samples.getD (2 * i + 1) 0) / 2) := by
  induction i generalizing samples with
  | zero =>
    match samples with
    | [] => simp at h
    | [a] => simp at h
    | a :: b :: rest => simp [downmixStereo, List.getD]
  | succ i ih =>
    match samples with
    | [] => simp at h
    | [a] => simp at h
    | a :: b :: rest =>
      have h' : 2 * i + 1 < rest.length := by
        simp only [List.length_cons] at h; omega
      have e2 : 2 * (i + 1) = 2 * i + 1 + 1 := by omega
      have e3 : 2 * (i + 1) + 1 = 2 * i + 1 + 1 + 1 := by omega
      simp only [downmixStereo, List.get?_cons_succ, e2, e3, List.getD_cons_succ]
      exact ih rest h'

/-- Claim C9: `AudioBuffer::from_wav` returns `InvalidSampleRate` exactly for
rates other than 16000; at rate 16000 it returns `InvalidChannels` exactly
for 0 or more than 2 channels; mono input passes through unchanged; stereo
input is down-mixed, and the down-mix is the per-pair average of the
interleaved samples. -/
theorem from_wav_spec (samples : List ℚ) (sample_rate channels : ℕ) :
    ((∃ e g, from_wav samples sample_rate channels = .error (.invalidSampleRate e g)) ↔
      sample_rate ≠ 16000) ∧
    (sample_rate = 16000 →
      ((∃ c, from_wav samples sample_rate channels = .error (.invalidChannels c)) ↔
        (channels = 0 ∨ 2 < channels))) ∧
    from_wav samples 16000 1 = .ok samples ∧
    from_wav samples 16000 2 = .ok (downmixStereo samples) ∧
    (∀ i, 2 * i + 1 < samples.length →
      (downmixStereo samples).get? i =
        some ((samples.getD (2 * i) 0 + samples.getD (2 * i + 1) 0) / 2)) := by
  refine ⟨?_, ?_, by simp [from_wav, SAMPLE_RATE], by simp [from_wav, SAMPLE_RATE],
    downmixStereo_get? samples⟩
  · constructor
    · rintro ⟨e, g, hr⟩
      intro hrate
      subst hrate
      rw [from_wav, if_neg (by simp [SAMPLE_RATE])] at hr
      by_cases hc : channels = 0 ∨ 2 < channels
      · rw [if_pos hc] at hr
        simp at hr
      · rw [if_neg hc] at hr
        by_cases h2 : channels = 2
        · rw [if_pos h2] at hr; simp at hr
        · rw [if_neg h2] at hr; simp at hr
    · intro hrate
      refine ⟨SAMPLE_RATE, sample_rate, ?_⟩
      rw [from_wav, if_pos (by simpa [SAMPLE_RATE] using hrate)]
  · rintro rfl
    constructor
    · rintro ⟨c, hr⟩
      rw [from_wav, if_neg (by simp [SAMPLE_RATE])] at hr
      by_cases hc : channels = 0 ∨ 2 < channels
      · exact hc
      · rw [if_neg hc] at hr
        by_cases h2 : channels = 2
        · rw [if_pos h2] at hr; simp at hr
        · rw [if_neg h2] at hr; simp at hr
    · intro hch
      refine ⟨channels, ?_⟩
      rw [from_wav, if_neg (by simp [SAMPLE_RATE]), if_pos hch]

/-- Witness for `from_wav_spec`: bad channel counts are rejected at the
valid rate, and a concrete stereo pair averages to its midpoint. -/
theorem from_wav_spec_witness :
    (∃ c, from_wav [(1 : ℚ), 3] 16000 5 = .error (.invalidChannels c)) ∧
    (downmixStereo [(1 : ℚ), 3]).get? 0 = some 2 := by
  refine ⟨((from_wav_spec [(1 : ℚ), 3] 16000 5).2.1 rfl).mpr (by omega), ?_⟩
  have h := (from_wav_spec [(1 : ℚ), 3] 16000 2).2.2.2.2 0 (by decide)
  rw [h]
  norm_num [List.getD]

/-! ## C6: token-duration triples to timestamped segments -/

theorem frame_to_secs_eq (f : ℕ) : frame_to_secs f = (2 / 25 : ℚ) * (f : ℚ) := by
  simp only [frame_to_secs, mel_frame_to_secs]
  push_cast
  ring

/-- Claim C6: `to_segments` agrees with the claim-side description
`claimC6Segments` — feeding each token id to the detokenizer stream in
order, every step yielding text produces exactly one segment stamped
`0.08 · frame_index` to `0.08 · (frame_index + duration)` seconds, every
pending step produces nothing, for every stream machine and every token
list (first stream error aborts both). -/
theorem to_segments_eq_claim {σ ε : Type}
    (step : σ → ℕ → Except ε (σ × Option (List Char)))
    (s : σ) (tds : List TokenDuration) :
    to_segments step s tds = claimC6Segments step s tds := by
  induction tds generalizing s with
  | nil => rfl
  | cons td rest ih =>
    cases hstep : step s td.token_id with
    | error e =>
      simp [to_segments, claimC6Segments, streamOutputs, hstep, Except.map]
    | ok out =>
      obtain ⟨s', o⟩ := out
      cases o with
      | none =>
        have ihs := ih s'
        simp only [to_segments, hstep]
        rw [ihs]
        simp only [claimC6Segments, List.map_cons, streamOutputs, hstep]
        cases hrec : streamOutputs step s' (rest.map TokenDuration.token_id) with
        | error e => simp [Except.map, hrec]
        | ok os => simp [Except.map, hrec, List.filterMap_cons]
      | some text =>
        have ihs := ih s'
        simp only [to_segments, hstep]
        rw [ihs]
        simp only [claimC6Segments, List.map_cons, streamOutputs, hstep]
        cases hrec : streamOutputs step s' (rest.map TokenDuration.token_id) with
        | error e => simp [Except.map, hrec]
        | ok os =>
          simp only [Except.map, hrec, List.zip_cons_cons, List.filterMap_cons,
            Option.map_some]
          have hcast : ((td.frame_index + td.duration : ℕ) : ℚ) =
              (td.frame_index : ℚ) + (td.duration : ℚ) := by push_cast; ring
          have hseg :
              (⟨text, frame_to_secs td.frame_index,
                frame_to_secs (td.frame_index + td.duration)⟩ : Segment) =
              ⟨text, (2 / 25 : ℚ) * (td.frame_index : ℚ),
                (2 / 25 : ℚ) * ((td.frame_index : ℚ) + (td.duration : ℚ))⟩ := by
            rw [frame_to_secs_eq, frame_to_secs_eq, hcast]
          rw [hseg]
          simp

/-! ## Helper lemmas for the decode loop -/

theorem applyDecision_frame {σ : Type} (out : JointOut σ) (b t s len : ℕ)
    (st : DecodeState σ) :
    (applyDecision out b t s len st).frame_index = min len (st.frame_index + s) := by
  unfold applyDecision
  split <;> rfl

theorem applyDecision_tokens {σ : Type} (out : JointOut σ) (b t s len : ℕ)
    (st : DecodeState σ) :
    (applyDecision out b t s len st).tokens =
      if t ≠ b then st.tokens ++ [⟨t, st.frame_index, s⟩] else st.tokens := by
  unfold applyDecision
  split <;> simp_all

theorem applyDecision_inv {σ : Type} (out : JointOut σ) (b t s len : ℕ)
    (st : DecodeState σ) (hle : st.frame_index ≤ len) (hinv : DecodeInv b st) :
    DecodeInv b (applyDecision out b t s len st) := by
  obtain ⟨hbound, hchain, hblank⟩ := hinv
  have hfr := applyDecision_frame out b t s len st
  have htk := applyDecision_tokens out b t s len st
  have hmono : st.frame_index ≤ (applyDecision out b t s len st).frame_index := by
    rw [hfr]; omega
  by_cases hbt : t ≠ b
  · rw [if_pos hbt] at htk
    refine ⟨?_, ?_, ?_⟩
    · intro td htd
      rw [htk] at htd
      rcases List.mem_append.mp htd with h | h
      · exact le_trans (hbound td h) hmono
      · simp at h; subst h; exact hmono
    · rw [htk, List.chain'_append]
      refine ⟨hchain, List.chain'_singleton _, ?_⟩
      intro x hx y hy
      simp only [List.head?_cons, Option.mem_def, Option.some.injEq] at hy
      subst hy
      exact hbound x (List.getElem?_mem (List.getLast?_eq_getElem? _ ▸ hx))
    · intro td htd
      rw [htk] at htd
      rcases List.mem_append.mp htd with h | h
      · exact hblank td h
      · simp at h; subst h; simpa using hbt
  · rw [if_neg hbt] at htk
    exact ⟨fun td htd => le_trans (hbound td (htk ▸ htd)) hmono,
      htk ▸ hchain, fun td htd => hblank td (htk ▸ htd)⟩

theorem innerLoop_frame {σ : Type} (joint : σ → σ → ℕ → ℕ → JointOut σ)
    (blank_id : ℕ) (durations : List ℕ) (len : ℕ) :
    ∀ (k : ℕ) (st st' : DecodeState σ) (broke : Bool),
      innerLoop joint blank_id durations len k st = .ok (st', broke) →
      st.frame_index ≤ len →
      st'.frame_index ≤ len ∧
      (broke = false → st'.frame_index = st.frame_index) ∧
      (broke = true → st.frame_index < len → st.frame_index < st'.frame_index) := by
  intro k
  induction k with
  | zero =>
    intro st st' broke h hle
    simp only [innerLoop, Except.ok.injEq, Prod.mk.injEq] at h
    obtain ⟨rfl, rfl⟩ := h
    exact ⟨hle, fun _ => rfl, fun hb => by simp at hb⟩
  | succ k ih =>
    intro st st' broke h hle
    simp only [innerLoop] at h
    cases hd : jointDecision blank_id durations
        (joint st.states_1 st.states_2 st.frame_index st.target).logits with
    | error e => rw [hd] at h; simp at h
    | ok pr =>
      obtain ⟨tid, skip⟩ := pr
      rw [hd] at h
      simp only at h
      have hfr := applyDecision_frame (joint st.states_1 st.states_2 st.frame_index st.target)
        blank_id tid skip len st
      by_cases hskip : skip = 0
      · subst hskip
        rw [if_neg (by simp)] at h
        have hfr0 : (applyDecision (joint st.states_1 st.states_2 st.frame_index st.target)
            blank_id tid 0 len st).frame_index = st.frame_index := by
          rw [hfr]; omega
        obtain ⟨h1, h2, h3⟩ := ih _ st' broke h (by rw [hfr0]; exact hle)
        exact ⟨h1, fun hb => (h2 hb).trans hfr0,
          fun hb hlt => by
            have := h3 hb (by rw [hfr0]; exact hlt)
            rwa [hfr0] at this⟩
      · rw [if_pos hskip] at h
        simp only [Except.ok.injEq, Prod.mk.injEq] at h
        obtain ⟨rfl, rfl⟩ := h
        refine ⟨by rw [hfr]; omega, fun hb => by simp at hb, fun _ hlt => ?_⟩
        rw [hfr]
        omega

theorem innerLoop_inv {σ : Type} (joint : σ → σ → ℕ → ℕ → JointOut σ)
    (blank_id : ℕ) (durations : List ℕ) (len : ℕ) :
    ∀ (k : ℕ) (st st' : DecodeState σ) (broke : Bool),
      innerLoop joint blank_id durations len k st = .ok (st', broke) →
      st.frame_index ≤ len → DecodeInv blank_id st →
      DecodeInv blank_id st' := by
  intro k
  induction k with
  | zero =>
    intro st st' broke h hle hinv
    simp only [innerLoop, Except.ok.injEq, Prod.mk.injEq] at h
    obtain ⟨rfl, rfl⟩ := h
    exact hinv
  | succ k ih =>
    intro st st' broke h hle hinv
    simp only [innerLoop] at h
    cases hd : jointDecision blank_id durations
        (joint st.states_1 st.states_2 st.frame_index st.target).logits with
    | error e => rw [hd] at h; simp at h
    | ok pr =>
      obtain ⟨tid, skip⟩ := pr
      rw [hd] at h
      simp only at h
      have hinv2 := applyDecision_inv
        (joint st.states_1 st.states_2 st.frame_index st.target)
        blank_id tid skip len st hle hinv
      have hle2 : (applyDecision (joint st.states_1 st.states_2 st.frame_index st.target)
          blank_id tid skip len st).frame_index ≤ len := by
        rw [applyDecision_frame]; omega
      by_cases hskip : skip = 0
      · subst hskip
        rw [if_neg (by simp)] at h
        exact ih _ st' broke h hle2 hinv2
      · rw [if_pos hskip] at h
        simp only [Except.ok.injEq, Prod.mk.injEq] at h
        obtain ⟨rfl, rfl⟩ := h
        exact hinv2

theorem outerStep_frame {σ : Type} (joint : σ → σ → ℕ → ℕ → JointOut σ)
    (blank_id : ℕ) (durations : List ℕ) (len : ℕ) (st st' : DecodeState σ)
    (h : outerStep joint blank_id durations len st = .ok st')
    (hlt : st.frame_index < len) :
    st.frame_index < st'.frame_index ∧ st'.frame_index ≤ len := by
  unfold outerStep at h
  cases hi : innerLoop joint blank_id durations len MAX_SYMBOLS_PER_STEP st with
  | error e => rw [hi] at h; simp at h
  | ok pr =>
    obtain ⟨sti, broke⟩ := pr
    obtain ⟨h1, h2, h3⟩ := innerLoop_frame joint blank_id durations len
      MAX_SYMBOLS_PER_STEP st sti broke hi (Nat.le_of_lt hlt)
    rw [hi] at h
    cases broke with
    | true =>
      simp only [Except.ok.injEq] at h
      subst h
      exact ⟨h3 rfl hlt, h1⟩
    | false =>
      simp only [Except.ok.injEq] at h
      subst h
      have := h2 rfl
      constructor
      · simp only [this]; omega
      · simp only [this]; omega

theorem outerStep_inv {σ : Type} (joint : σ → σ → ℕ → ℕ → JointOut σ)
    (blank_id : ℕ) (durations : List ℕ) (len : ℕ) (st st' : DecodeState σ)
    (h : outerStep joint blank_id durations len st = .ok st')
    (hle : st.frame_index ≤ len) (hinv : DecodeInv blank_id st) :
    DecodeInv blank_id st' := by
  unfold outerStep at h
  cases hi : innerLoop joint blank_id durations len MAX_SYMBOLS_PER_STEP st with
  | error e => rw [hi] at h; simp at h
  | ok pr =>
    obtain ⟨sti, broke⟩ := pr
    have hinv' := innerLoop_inv joint blank_id durations len
      MAX_SYMBOLS_PER_STEP st sti broke hi hle hinv
    rw [hi] at h
    cases broke with
    | true => simp only [Except.ok.injEq] at h; subst h; exact hinv'
    | false =>
      simp only [Except.ok.injEq] at h
      subst h
      obtain ⟨hbound, hchain, hblank⟩ := hinv'
      exact ⟨fun td htd => le_trans (hbound td htd) (Nat.le_succ _), hchain, hblank⟩

theorem loopBound_lt_len (len : ℕ) (h : 1 ≤ len) : loopBound len < len := by
  unfold loopBound
  have he : len + 2 ^ 64 - 1 = (len - 1) + 2 ^ 64 := by omega
  rw [he, Nat.add_mod_right]
  have := Nat.mod_le (len - 1) (2 ^ 64)
  omega

theorem outerLoop_isSome {σ : Type} (joint : σ → σ → ℕ → ℕ → JointOut σ)
    (blank_id : ℕ) (durations : List ℕ) (len : ℕ)
    (hlb : loopBound len < len) :
    ∀ (fuel : ℕ) (st : DecodeState σ),
      loopBound len ≤ st.frame_index + fuel → st.frame_index ≤ len →
      (outerLoop joint blank_id durations len fuel st).isSome := by
  intro fuel
  induction fuel with
  | zero =>
    intro st hfu hle
    simp only [outerLoop]
    rw [if_neg (by omega)]
    simp
  | succ f ih =>
    intro st hfu hle
    simp only [outerLoop]
    by_cases hc : st.frame_index < loopBound len
    · rw [if_pos hc]
      cases ho : outerStep joint blank_id durations len st with
      | error e => simp
      | ok st' =>
        obtain ⟨hgt, hle'⟩ := outerStep_frame joint blank_id durations len st st' ho
          (lt_trans hc hlb)
        exact ih st' (by omega) hle'
    · rw [if_neg hc]
      simp

theorem outerLoop_ok_inv {σ : Type} (joint : σ → σ → ℕ → ℕ → JointOut σ)
    (blank_id : ℕ) (durations : List ℕ) (len : ℕ)
    (hlb : loopBound len < len) :
    ∀ (fuel : ℕ) (st : DecodeState σ) (L : List TokenDuration),
      st.frame_index ≤ len → DecodeInv blank_id st →
      outerLoop joint blank_id durations len fuel st = some (.ok L) →
      (∀ td ∈ L, td.token_id ≠ blank_id) ∧
      List.Chain' (fun a b : TokenDuration => a.frame_index ≤ b.frame_index) L := by
  intro fuel
  induction fuel with
  | zero =>
    intro st L hle hinv h
    simp only [outerLoop] at h
    split at h
    · simp at h
    · simp only [Option.some.injEq, Except.ok.injEq] at h
      subst h
      exact ⟨hinv.2.2, hinv.2.1⟩
  | succ f ih =>
    intro st L hle hinv h
    simp only [outerLoop] at h
    split at h
    · rename_i hc
      cases ho : outerStep joint blank_id durations len st with
      | error e => rw [ho] at h; simp at h
      | ok st' =>
        rw [ho] at h
        simp only at h
        have hlt : st.frame_index < len := lt_trans hc hlb
        obtain ⟨_, hle'⟩ := outerStep_frame joint blank_id durations len st st' ho hlt
        exact ih st' L hle' (outerStep_inv joint blank_id durations len st st' ho hle hinv) h
    · simp only [Option.some.injEq, Except.ok.injEq] at h
      subst h
      exact ⟨hinv.2.2, hinv.2.1⟩

/-! ## C2: termination of the greedy decode -/

/-- Claim C2: for `encoded_length ≥ 1` every outer-loop iteration strictly
increases `frame_index` (a positive skip advances it to
`min(encoded_length, frame_index + skip)`, and exhausting the label loop
forces a `+ 1`), so `greedy_decode` terminates within its fuel for every
decoder-joint behaviour. -/
theorem greedy_decode_terminates {σ : Type} (joint : σ → σ → ℕ → ℕ → JointOut σ)
    (s1 s2 : σ) (blank_id : ℕ) (durations : List ℕ) (encoded_length : ℕ)
    (hlen : 1 ≤ encoded_length) :
    (∀ st : DecodeState σ, st.frame_index < loopBound encoded_length →
      ∀ st', outerStep joint blank_id durations encoded_length st = .ok st' →
        st.frame_index < st'.frame_index) ∧
    (greedy_decode joint s1 s2 blank_id durations encoded_length).isSome := by
  have hlb := loopBound_lt_len encoded_length hlen
  constructor
  · intro st hc st' ho
    exact (outerStep_frame joint blank_id durations encoded_length st st' ho
      (lt_trans hc hlb)).1
  · exact outerLoop_isSome joint blank_id durations encoded_length hlb
      encoded_length (initDecodeState s1 s2 blank_id) (by simp [initDecodeState]; omega)
      (by simp [initDecodeState])

/-- Witness for `greedy_decode_terminates` at a concrete blank-emitting
oracle and `encoded_length = 5`. -/
theorem greedy_decode_terminates_witness :
    (greedy_decode blankJoint () () 1 TDT_DURATIONS 5).isSome :=
  (greedy_decode_terminates blankJoint () () 1 TDT_DURATIONS 5 (by omega)).2

/-! ## C1: output invariants of the greedy decode -/

/-- Claim C1: whatever the decoder-joint does, a successful
`greedy_decode` at `encoded_length ≥ 1` returns a token list with no blank
(`token_id ≠ blank_id`, the detokenizer's vocab size) and non-decreasing
frame indices in emission order. -/
theorem greedy_decode_invariants {σ : Type} (joint : σ → σ → ℕ → ℕ → JointOut σ)
    (s1 s2 : σ) (blank_id : ℕ) (durations : List ℕ) (encoded_length : ℕ)
    (hlen : 1 ≤ encoded_length) (L : List TokenDuration)
    (h : greedy_decode joint s1 s2 blank_id durations encoded_length = some (.ok L)) :
    (∀ td ∈ L, td.token_id ≠ blank_id) ∧
    List.Chain' (fun a b : TokenDuration => a.frame_index ≤ b.frame_index) L := by
  have hlb := loopBound_lt_len encoded_length hlen
  exact outerLoop_ok_inv joint blank_id durations encoded_length hlb
    encoded_length (initDecodeState s1 s2 blank_id) L
    (by simp [initDecodeState]) (by simp [DecodeInv, initDecodeState]) h

/-- Witness for `greedy_decode_invariants`: the non-blank constant oracle at
`encoded_length = 2` emits exactly one token. -/
theorem greedy_decode_invariants_witness :
    (∀ td ∈ [(⟨0, 0, 1⟩ : TokenDuration)], td.token_id ≠ 1) ∧
    List.Chain' (fun a b : TokenDuration => a.frame_index ≤ b.frame_index)
      [(⟨0, 0, 1⟩ : TokenDuration)] :=
  greedy_decode_invariants tokenJoint () () 1 TDT_DURATIONS 2 (by omega)
    [⟨0, 0, 1⟩] (by rfl)

/-! ## C10: non-totality at `encoded_length = 0` -/

/-- Claim C10: the outer-loop bound `encoded_length - 1` is computed on
`usize`, so at `encoded_length = 0` it wraps to `2^64 - 1` instead of making
the loop run zero times; with a concrete blank-emitting oracle the loop then
never terminates (the frame index is clamped to `min 0 (0 + skip) = 0`), for
any amount of fuel.  Under the precondition `encoded_length ≥ 1` the loop is
total. -/
theorem greedy_decode_not_total_at_zero :
    loopBound 0 = 2 ^ 64 - 1 ∧
    (∀ fuel : ℕ,
      outerLoop blankJoint 1 TDT_DURATIONS 0 fuel (initDecodeState () () 1) = none) ∧
    (∀ (σ : Type) (joint : σ → σ → ℕ → ℕ → JointOut σ) (s1 s2 : σ)
      (blank_id : ℕ) (durations : List ℕ) (encoded_length : ℕ),
      1 ≤ encoded_length →
      (greedy_decode joint s1 s2 blank_id durations encoded_length).isSome) := by
  have hstep : outerStep blankJoint 1 TDT_DURATIONS 0 (initDecodeState () () 1) =
      .ok (initDecodeState () () 1) := by rfl
  have hin : (initDecodeState () () 1 : DecodeState Unit).frame_index < loopBound 0 := by
    decide
  refine ⟨by decide, ?_, ?_⟩
  · intro fuel
    induction fuel with
    | zero =>
      simp only [outerLoop]
      rw [if_pos hin]
    | succ f ihf =>
      simp only [outerLoop]
      rw [if_pos hin, hstep]
      simpa using ihf
  · intro σ joint s1 s2 blank_id durations encoded_length hlen
    have hlb := loopBound_lt_len encoded_length hlen
    exact outerLoop_isSome joint blank_id durations encoded_length hlb
      encoded_length (initDecodeState s1 s2 blank_id)
      (by simp [initDecodeState]; omega) (by simp [initDecodeState])

/-- Witness for `greedy_decode_not_total_at_zero`'s positive part. -/
theorem greedy_decode_not_total_at_zero_witness :
    (greedy_decode blankJoint () () 1 TDT_DURATIONS 3).isSome :=
  greedy_decode_not_total_at_zero.2.2 Unit blankJoint () () 1 TDT_DURATIONS 3 (by omega)

/-! ## Helper lemmas for the regrouper -/

theorem rstrLen_append (a b : List Char) : rstrLen (a ++ b) = rstrLen a + rstrLen b := by
  simp [rstrLen]

theorem rstrLen_stripLeadingSpace (t : List Char) :
    rstrLen (stripLeadingSpace t) ≤ rstrLen t := by
  cases t with
  | nil => simp [stripLeadingSpace]
  | cons c rest =>
    simp only [stripLeadingSpace]
    split
    · simp [rstrLen]
    · exact le_refl _

theorem rstrLen_flatten (L : List (List Char)) :
    rstrLen L.flatten = (L.map rstrLen).sum := by
  induction L with
  | nil => simp [rstrLen]
  | cons x t ih => simp [rstrLen_append, ih]

theorem charSum_append (a b : List Segment) :
    charSum (a ++ b) = charSum a + charSum b := by
  simp [charSum]

theorem rstrLen_flatten_texts (L : List Segment) :
    rstrLen ((L.map Segment.text).flatten) = charSum L := by
  induction L with
  | nil => simp [rstrLen, charSum]
  | cons x t ih => simp [rstrLen_append, charSum, List.map_cons, List.sum_cons, ih]

theorem merge_segments_spec (l : List Segment) (h : l ≠ []) :
    ∃ s, merge_segments l = some s ∧
      s.start = (l.headD ⟨[], 0, 0⟩).start ∧
      s.stop = (l.getLastD ⟨[], 0, 0⟩).stop ∧
      rstrLen s.text ≤ charSum l := by
  match l with
  | [] => exact absurd rfl h
  | [single] =>
    refine ⟨single, rfl, rfl, rfl, ?_⟩
    simp [charSum]
  | first :: next :: rest =>
    refine ⟨_, rfl, rfl, ?_, ?_⟩
    · simp only [List.getLastD_cons]
    · have h1 := rstrLen_stripLeadingSpace first.text
      have h2 := rstrLen_flatten_texts (next :: rest)
      rw [rstrLen_append, h2]
      simp only [charSum, List.map_cons, List.sum_cons]
      omega

theorem Node.new_index (index : ℕ) (left : Segment) (right : Option Segment)
    (nd : Node) (h : Node.new index left right = some nd) : nd.index = index := by
  unfold Node.new at h
  split at h
  · simp only [Option.some.injEq] at h; subst h; rfl
  · split at h
    · simp only [Option.some.injEq] at h; subst h; rfl
    · rcases right with _ | r
      · simp at h
      · simp only at h
        split at h
        · simp only [Option.some.injEq] at h; subst h; rfl
        · simp at h

theorem from_segments_index_le (segments : List Segment) :
    ∀ nd ∈ Node.from_segments segments, nd.index ≤ segments.length := by
  intro nd hnd
  unfold Node.from_segments at hnd
  rcases List.mem_cons.mp hnd with h | h
  · subst h; exact Nat.zero_le _
  · rcases List.mem_append.mp h with h | h
    · obtain ⟨i, hi, hnew⟩ := List.mem_filterMap.mp h
      rw [Node.new_index i _ _ nd hnew]
      have := List.mem_range'_1.mp hi
      omega
    · simp only [List.mem_singleton] at h
      subst h
      exact le_refl _

theorem build_char_prefix_sum_getD_aux (l : List Segment) :
    ∀ (a k : ℕ), k ≤ l.length →
      (l.scanl (fun acc s => acc + rstrLen s.text) a).getD k 0 =
        a + charSum (l.take k) := by
  induction l with
  | nil =>
    intro a k hk
    obtain rfl := Nat.le_zero.mp hk
    simp [List.scanl, charSum]
  | cons x t ih =>
    intro a k hk
    cases k with
    | zero => simp [List.scanl, charSum]
    | succ k =>
      simp only [List.scanl, List.getD_cons_succ, List.take_succ_cons]
      rw [ih (a + rstrLen x.text) k (by simpa using hk)]
      simp only [charSum, List.map_cons, List.sum_cons]
      omega

theorem build_char_prefix_sum_getD (segments : List Segment) (k : ℕ)
    (hk : k ≤ segments.length) :
    (build_char_prefix_sum segments).getD k 0 = charSum (segments.take k) := by
  unfold build_char_prefix_sum
  rw [build_char_prefix_sum_getD_aux segments 0 k hk]
  omega

theorem charSum_slice (segments : List Segment) (i j : ℕ) (hij : i ≤ j)
    (_hj : j ≤ segments.length) :
    charSum ((segments.drop i).take (j - i)) =
      charSum (segments.take j) - charSum (segments.take i) := by
  have he : j = i + (j - i) := by omega
  have := List.take_add segments i (j - i)
  rw [← he] at this
  rw [this, charSum_append]
  omega

/-! ## Soundness of the DP parent pointers -/

theorem fspStep_parent_sound (cfg : Segmenter) (segPenalty : ℚ → ℕ → Option ℚ)
    (segments : List Segment) (prefixSums : List ℕ) (nodes : List Node)
    (jpos : ℕ) (jn : Node) (hj : nodes[jpos]? = some jn)
    (ipos : ℕ) (inode : Node) (hi : nodes[ipos]? = some inode)
    (hij : inode.index < jn.index)
    (acc : List (Option ℚ) × List (Option ℕ))
    (hacc : ∀ v u, acc.2.getD v none = some u →
      AdmEdge cfg nodes segments prefixSums u v) :
    ∀ v u, (fspStep cfg segPenalty segments prefixSums jpos jn acc (ipos, inode)).2.getD
        v none = some u →
      AdmEdge cfg nodes segments prefixSums u v := by
  intro v u h
  unfold fspStep at h
  dsimp only at h
  split at h
  · exact hacc v u h
  · rename_i hviol
    split at h
    · simp only at h
      by_cases hv : v = jpos
      · subst hv
        by_cases hlenp : v < acc.2.length
        · rw [List.getD_eq_getElem?_getD, List.getElem?_set_self hlenp] at h
          simp only [Option.getD_some, Option.some.injEq] at h
          subst h
          push_neg at hviol
          exact ⟨inode, jn, hi, hj, hij, hviol.1, hviol.2⟩
        · rw [List.getD_eq_getElem?_getD,
            List.set_eq_of_length_le (Nat.le_of_not_lt hlenp),
            ← List.getD_eq_getElem?_getD] at h
          exact hacc _ u h
      · rw [List.getD_eq_getElem?_getD, List.getElem?_set_ne (fun he => hv he.symm),
          ← List.getD_eq_getElem?_getD] at h
        exact hacc v u h
    · exact hacc v u h

theorem find_shortest_path_parent_sound (cfg : Segmenter)
    (segPenalty : ℚ → ℕ → Option ℚ) (nodes : List Node) (segments : List Segment)
    (prefixSums : List ℕ) :
    ∀ v u, (find_shortest_path cfg segPenalty nodes segments prefixSums).2.getD
        v none = some u →
      AdmEdge cfg nodes segments prefixSums u v := by
  unfold find_shortest_path
  dsimp only
  refine @List.foldlRecOn (List (Option ℚ) × List (Option ℕ)) (ℕ × Node)
    (fun acc => ∀ v u, acc.2.getD v none = some u →
      AdmEdge cfg nodes segments prefixSums u v) nodes.enum _ _ ?_ ?_
  · intro v u h
    rw [List.getD_eq_getElem?_getD, List.getElem?_replicate] at h
    split at h <;> simp at h
  · intro acc hacc jp hjp
    have hj : nodes[jp.1]? = some jp.2 := List.mem_enum_iff_getElem?.mp hjp
    refine @List.foldlRecOn (List (Option ℚ) × List (Option ℕ)) (ℕ × Node)
      (fun acc => ∀ v u, acc.2.getD v none = some u →
        AdmEdge cfg nodes segments prefixSums u v) _ _ acc hacc ?_
    intro acc' hacc' ip hip
    have hip_enum : ip ∈ nodes.enum :=
      (List.takeWhile_prefix _).subset hip
    have hi : nodes[ip.1]? = some ip.2 := List.mem_enum_iff_getElem?.mp hip_enum
    have hlt : ip.2.index < jp.2.index := by
      simpa using List.mem_takeWhile_imp hip
    exact fspStep_parent_sound cfg segPenalty segments prefixSums nodes
      jp.1 jp.2 hj ip.1 ip.2 hi hlt acc' hacc'

/-! ## C7: regrouped subtitles respect the hard limits -/

theorem backtrackAux_good (cfg : Segmenter) (nodes : List Node)
    (parent : List (Option ℕ)) (segments : List Segment)
    (hsound : ∀ v u, parent.getD v none = some u →
      AdmEdge cfg nodes segments (build_char_prefix_sum segments) u v)
    (hidx : ∀ nd ∈ nodes, nd.index ≤ segments.length) :
    ∀ (fuel v : ℕ) (acc : List Segment),
      (∀ s ∈ acc, s.stop - s.start ≤ cfg.max_duration ∧
        rstrLen s.text ≤ cfg.max_chars) →
      ∀ s ∈ backtrackAux nodes parent segments fuel v acc,
        s.stop - s.start ≤ cfg.max_duration ∧ rstrLen s.text ≤ cfg.max_chars := by
  intro fuel
  induction fuel with
  | zero => intro v acc hacc s hs; exact hacc s hs
  | succ fuel ih =>
    intro v acc hacc s hs
    simp only [backtrackAux] at hs
    cases hp : parent.getD v none with
    | none => rw [hp] at hs; exact hacc s hs
    | some u =>
      rw [hp] at hs
      simp only at hs
      obtain ⟨nu, nv, hnu, hnv, hij, hdur, hchars⟩ := hsound v u hp
      have hnodeu : nodes.getD u ⟨0, .boundary⟩ = nu := by
        rw [List.getD_eq_getElem?_getD, hnu]; rfl
      have hnodev : nodes.getD v ⟨0, .boundary⟩ = nv := by
        rw [List.getD_eq_getElem?_getD, hnv]; rfl
      rw [hnodeu, hnodev] at hs
      set i := nu.index with hidef
      set j := nv.index with hjdef
      have hjle : j ≤ segments.length := hidx nv (List.getElem?_mem hnv)
      have hile : i < segments.length := lt_of_lt_of_le hij hjle
      set slice := (segments.drop i).take (j - i) with hslice
      have hslice_len : slice.length = j - i := by
        rw [hslice, List.length_take, List.length_drop]
        omega
      have hslice_ne : slice ≠ [] := by
        intro hc
        have hz := hslice_len
        rw [hc] at hz
        simp only [List.length_nil] at hz
        omega
      obtain ⟨ms, hms, hstart, hstop, hlen⟩ := merge_segments_spec slice hslice_ne
      rw [hms] at hs
      simp only at hs
      have hgood : ms.stop - ms.start ≤ cfg.max_duration ∧
          rstrLen ms.text ≤ cfg.max_chars := by
        have hhead : slice.headD ⟨[], 0, 0⟩ = segD segments i := by
          rw [List.headD_eq_head?, hslice]
          rw [List.head?_eq_getElem?, List.getElem?_take, if_pos (by omega),
            List.getElem?_drop]
          rw [segD, List.getD_eq_getElem?_getD]
          rfl
        have hlast : slice.getLastD ⟨[], 0, 0⟩ = segD segments (j - 1) := by
          rw [List.getLastD_eq_getLast?, List.getLast?_eq_getElem?, hslice_len]
          rw [hslice, List.getElem?_take, if_pos (by omega), List.getElem?_drop]
          have : i + (j - i - 1) = j - 1 := by omega
          rw [this, segD, List.getD_eq_getElem?_getD]
        constructor
        · rw [hstart, hstop, hhead, hlast]
          exact hdur
        · have hcs : charSum slice =
              charSum (segments.take j) - charSum (segments.take i) := by
            rw [hslice]
            exact charSum_slice segments i j (le_of_lt hij) hjle
          have hpj := build_char_prefix_sum_getD segments j hjle
          have hpi := build_char_prefix_sum_getD segments i (le_of_lt hile)
          rw [hpj, hpi] at hchars
          omega
      exact ih u (acc ++ [ms])
        (fun t ht => by
          rcases List.mem_append.mp ht with h | h
          · exact hacc t h
          · simp only [List.mem_singleton] at h; subst h; exact hgood)
        s hs

/-- Claim C7: every subtitle returned by `Segmenter::regroup` satisfies the
hard limits `end - start ≤ max_duration` and byte length at most
`max_chars`, for every segment-penalty function, configuration and input:
every emitted group comes from an admitted DP edge, and merging only
concatenates member texts (stripping at most one leading space) and takes
the first member's start and the last member's end. -/
theorem regroup_respects_limits (cfg : Segmenter) (segPenalty : ℚ → ℕ → Option ℚ)
    (segments : List Segment) :
    ∀ s ∈ cfg.regroup segPenalty segments,
      s.stop - s.start ≤ cfg.max_duration ∧ rstrLen s.text ≤ cfg.max_chars := by
  have hchunk : ∀ (chunk : List Segment), ∀ s ∈ cfg.regroup_chunk segPenalty chunk,
      s.stop - s.start ≤ cfg.max_duration ∧ rstrLen s.text ≤ cfg.max_chars := by
    intro chunk s hs
    unfold Segmenter.regroup_chunk at hs
    split at hs
    · simp at hs
    · simp only [backtrack_path, List.mem_reverse] at hs
      exact backtrackAux_good cfg (Node.from_segments chunk) _ chunk
        (find_shortest_path_parent_sound cfg segPenalty (Node.from_segments chunk)
          chunk (build_char_prefix_sum chunk))
        (from_segments_index_le chunk) _ _ [] (by simp) s hs
  intro s hs
  unfold Segmenter.regroup at hs
  split at hs
  · simp at hs
  · simp only [List.mem_flatten, List.mem_map] at hs
    obtain ⟨l, ⟨r, _, hl⟩, hsl⟩ := hs
    exact hchunk _ s (hl ▸ hsl)

/-! ## The regrouper on all-mid-word inputs (claim C8) -/

theorem Node.new_none (index : ℕ) (left r : Segment)
    (h1 : endsWithAny left.text ['.', '!', '?'] = false)
    (h2 : endsWithAny left.text [',', ':', ';', '-'] = false)
    (h3 : startsWithSpace r.text = false) :
    Node.new index left (some r) = none := by
  unfold Node.new
  simp [h1, h2, h3]

theorem from_segments_midword (segments : List Segment)
    (hmid : ∀ i, 1 ≤ i → i < segments.length →
      Node.new i (segD segments (i - 1)) (segments.get? i) = none) :
    Node.from_segments segments =
      [⟨0, .boundary⟩, ⟨segments.length, .boundary⟩] := by
  unfold Node.from_segments
  have hnil : (List.range' 1 (segments.length - 1)).filterMap
      (fun i => Node.new i (segD segments (i - 1)) (segments.get? i)) = [] := by
    rw [List.filterMap_eq_nil_iff]
    intro i hi
    have hm := List.mem_range'_1.mp hi
    exact hmid i hm.1 (by omega)
  rw [hnil]
  rfl

theorem gapSplitRanges_single (cfg : Segmenter) (segments : List Segment)
    (hgap : ∀ j, 1 ≤ j → j < segments.length →
      ¬ (cfg.max_gap < (segD segments j).start - (segD segments (j - 1)).stop)) :
    gapSplitRanges cfg segments = [(0, segments.length)] := by
  unfold gapSplitRanges
  dsimp only
  have hfold : ∀ (l : List ℕ) (st : ℕ × List (ℕ × ℕ)),
      (∀ j ∈ l, ¬ (cfg.max_gap < (segD segments j).start - (segD segments (j - 1)).stop)) →
      l.foldl
        (fun st j =>
          if cfg.max_gap < (segD segments j).start - (segD segments (j - 1)).stop then
            (j, st.2 ++ [(st.1, j)])
          else st) st = st := by
    intro l
    induction l with
    | nil => intro st _; rfl
    | cons x t ih =>
      intro st hl
      simp only [List.foldl_cons]
      rw [if_neg (hl x (by simp))]
      exact ih st (fun j hj => hl j (by simp [hj]))
  rw [hfold _ _ (fun j hj => by
    have hm := List.mem_range'_1.mp hj
    exact hgap j hm.1 (by omega))]
  rfl

theorem find_shortest_path_two_nodes_viol (cfg : Segmenter)
    (segPenalty : ℚ → ℕ → Option ℚ) (segments : List Segment) (prefixSums : List ℕ)
    (n : ℕ) (hn : 1 ≤ n)
    (hviol : cfg.max_duration < (segD segments (n - 1)).stop - (segD segments 0).start
      ∨ cfg.max_chars < prefixSums.getD n 0 - prefixSums.getD 0 0) :
    (find_shortest_path cfg segPenalty
        [⟨0, .boundary⟩, ⟨n, .boundary⟩] segments prefixSums).2 = [none, none] := by
  unfold find_shortest_path
  dsimp only
  have henum : ([(⟨0, SplitType.boundary⟩ : Node), ⟨n, .boundary⟩]).enum =
      [(0, ⟨0, .boundary⟩), (1, ⟨n, .boundary⟩)] := rfl
  rw [henum]
  simp only [List.foldl_cons, List.foldl_nil]
  have htw0 : List.takeWhile
      (fun ip : ℕ × Node => ip.2.index < (⟨0, SplitType.boundary⟩ : Node).index)
      [(0, (⟨0, SplitType.boundary⟩ : Node)), (1, ⟨n, .boundary⟩)] = [] := by
    rw [List.takeWhile_cons]
    simp
  have htw1 : List.takeWhile
      (fun ip : ℕ × Node => ip.2.index < (⟨n, SplitType.boundary⟩ : Node).index)
      [(0, (⟨0, SplitType.boundary⟩ : Node)), (1, ⟨n, .boundary⟩)] =
      [(0, ⟨0, .boundary⟩)] := by
    rw [List.takeWhile_cons]
    simp only [decide_eq_true_eq]
    rw [if_pos (by simpa using hn), List.takeWhile_cons]
    simp
  rw [htw0, htw1]
  simp only [List.foldl_cons, List.foldl_nil]
  unfold fspStep
  dsimp only
  rw [if_pos hviol]
  rfl

theorem find_shortest_path_two_nodes_nofin (cfg : Segmenter)
    (segPenalty : ℚ → ℕ → Option ℚ) (segments : List Segment) (prefixSums : List ℕ)
    (n : ℕ) (hn : 1 ≤ n)
    (hok : ¬ (cfg.max_duration < (segD segments (n - 1)).stop - (segD segments 0).start
      ∨ cfg.max_chars < prefixSums.getD n 0 - prefixSums.getD 0 0))
    (hsp : segPenalty ((segD segments (n - 1)).stop - (segD segments 0).start)
      (prefixSums.getD n 0 - prefixSums.getD 0 0) = none) :
    (find_shortest_path cfg segPenalty
        [⟨0, .boundary⟩, ⟨n, .boundary⟩] segments prefixSums).2 = [none, none] := by
  unfold find_shortest_path
  dsimp only
  have henum : ([(⟨0, SplitType.boundary⟩ : Node), ⟨n, .boundary⟩]).enum =
      [(0, ⟨0, .boundary⟩), (1, ⟨n, .boundary⟩)] := rfl
  rw [henum]
  simp only [List.foldl_cons, List.foldl_nil]
  have htw0 : List.takeWhile
      (fun ip : ℕ × Node => ip.2.index < (⟨0, SplitType.boundary⟩ : Node).index)
      [(0, (⟨0, SplitType.boundary⟩ : Node)), (1, ⟨n, .boundary⟩)] = [] := by
    rw [List.takeWhile_cons]
    simp
  have htw1 : List.takeWhile
      (fun ip : ℕ × Node => ip.2.index < (⟨n, SplitType.boundary⟩ : Node).index)
      [(0, (⟨0, SplitType.boundary⟩ : Node)), (1, ⟨n, .boundary⟩)] =
      [(0, ⟨0, .boundary⟩)] := by
    rw [List.takeWhile_cons]
    simp only [decide_eq_true_eq]
    rw [if_pos (by simpa using hn), List.takeWhile_cons]
    simp
  rw [htw0, htw1]
  simp only [List.foldl_cons, List.foldl_nil]
  unfold fspStep
  dsimp only
  rw [if_neg hok, hsp]
  split
  · rename_i hcon
    exact absurd hcon (by exact fun hh => Bool.noConfusion hh)
  · rfl

theorem find_shortest_path_two_nodes_fin (cfg : Segmenter)
    (segPenalty : ℚ → ℕ → Option ℚ) (segments : List Segment) (prefixSums : List ℕ)
    (n : ℕ) (hn : 1 ≤ n)
    (hok : ¬ (cfg.max_duration < (segD segments (n - 1)).stop - (segD segments 0).start
      ∨ cfg.max_chars < prefixSums.getD n 0 - prefixSums.getD 0 0))
    (p : ℚ)
    (hsp : segPenalty ((segD segments (n - 1)).stop - (segD segments 0).start)
      (prefixSums.getD n 0 - prefixSums.getD 0 0) = some p) :
    (find_shortest_path cfg segPenalty
        [⟨0, .boundary⟩, ⟨n, .boundary⟩] segments prefixSums).2 = [none, some 0] := by
  unfold find_shortest_path
  dsimp only
  have henum : ([(⟨0, SplitType.boundary⟩ : Node), ⟨n, .boundary⟩]).enum =
      [(0, ⟨0, .boundary⟩), (1, ⟨n, .boundary⟩)] := rfl
  rw [henum]
  simp only [List.foldl_cons, List.foldl_nil]
  have htw0 : List.takeWhile
      (fun ip : ℕ × Node => ip.2.index < (⟨0, SplitType.boundary⟩ : Node).index)
      [(0, (⟨0, SplitType.boundary⟩ : Node)), (1, ⟨n, .boundary⟩)] = [] := by
    rw [List.takeWhile_cons]
    simp
  have htw1 : List.takeWhile
      (fun ip : ℕ × Node => ip.2.index < (⟨n, SplitType.boundary⟩ : Node).index)
      [(0, (⟨0, SplitType.boundary⟩ : Node)), (1, ⟨n, .boundary⟩)] =
      [(0, ⟨0, .boundary⟩)] := by
    rw [List.takeWhile_cons]
    simp only [decide_eq_true_eq]
    rw [if_pos (by simpa using hn), List.takeWhile_cons]
    simp
  rw [htw0, htw1]
  simp only [List.foldl_cons, List.foldl_nil]
  unfold fspStep
  dsimp only
  rw [if_neg hok, hsp]
  split
  · rfl
  · rename_i hcon
    exact absurd rfl hcon

theorem backtrack_two_nodes_none (segments : List Segment) (n : ℕ) :
    backtrack_path [⟨0, .boundary⟩, ⟨n, .boundary⟩] [none, none] segments = [] := rfl

theorem backtrack_two_nodes_some (segments : List Segment) (n : ℕ) :
    backtrack_path [⟨0, .boundary⟩, ⟨n, .boundary⟩] [none, some 0] segments =
      (merge_segments ((segments.drop 0).take (n - 0))).toList := by
  simp only [Nat.sub_zero, List.drop_zero]
  cases hms : merge_segments (segments.take n) with
  | none => simp [backtrack_path, backtrackAux, hms]
  | some s => simp [backtrack_path, backtrackAux, hms]

theorem regroup_chunk_midword (cfg : Segmenter) (segPenalty : ℚ → ℕ → Option ℚ)
    (segments : List Segment) (hne : segments ≠ [])
    (hmid : ∀ i, 1 ≤ i → i < segments.length →
      Node.new i (segD segments (i - 1)) (segments.get? i) = none) :
    cfg.regroup_chunk segPenalty segments =
      if cfg.max_duration <
          (segD segments (segments.length - 1)).stop - (segD segments 0).start
        ∨ cfg.max_chars < charSum segments
        ∨ segPenalty
            ((segD segments (segments.length - 1)).stop - (segD segments 0).start)
            (charSum segments) = none
      then []
      else (merge_segments segments).toList := by
  have hn : 1 ≤ segments.length := List.length_pos.mpr hne
  unfold Segmenter.regroup_chunk
  rw [if_neg (by simpa [List.isEmpty_iff] using hne)]
  dsimp only
  rw [from_segments_midword segments hmid]
  have hpn := build_char_prefix_sum_getD segments segments.length (le_refl _)
  have hp0 := build_char_prefix_sum_getD segments 0 (Nat.zero_le _)
  rw [List.take_length] at hpn
  simp only [List.take_zero, charSum, List.map_nil, List.sum_nil] at hp0
  have hchars_eq : (build_char_prefix_sum segments).getD segments.length 0 -
      (build_char_prefix_sum segments).getD 0 0 = charSum segments := by
    rw [hpn, hp0]
    omega
  by_cases hviol : cfg.max_duration <
      (segD segments (segments.length - 1)).stop - (segD segments 0).start
    ∨ cfg.max_chars < charSum segments
  · rw [find_shortest_path_two_nodes_viol cfg segPenalty segments _ segments.length hn
      (by rw [hchars_eq]; exact hviol)]
    rw [if_pos (by tauto)]
    exact backtrack_two_nodes_none segments segments.length
  · cases hsp : segPenalty
        ((segD segments (segments.length - 1)).stop - (segD segments 0).start)
        (charSum segments) with
    | none =>
      rw [find_shortest_path_two_nodes_nofin cfg segPenalty segments _ segments.length hn
        (by rw [hchars_eq]; exact hviol) (by rw [hchars_eq]; exact hsp)]
      rw [if_pos (Or.inr (Or.inr rfl))]
      exact backtrack_two_nodes_none segments segments.length
    | some p =>
      rw [find_shortest_path_two_nodes_fin cfg segPenalty segments _ segments.length hn
        (by rw [hchars_eq]; exact hviol) p (by rw [hchars_eq]; exact hsp)]
      rw [if_neg (by
        rintro (h | h | h)
        · exact hviol (Or.inl h)
        · exact hviol (Or.inr h)
        · exact Option.noConfusion h)]
      rw [backtrack_two_nodes_some segments segments.length]
      rw [List.drop_zero, Nat.sub_zero, List.take_length]

/-- Witness for `regroup_respects_limits` at a one-segment input under the
comfortable preset. -/
theorem regroup_respects_limits_witness :
    (⟨['h', 'i'], 0, 1⟩ : Segment).stop - (⟨['h', 'i'], 0, 1⟩ : Segment).start ≤
      Segmenter.COMFORTABLE.max_duration ∧
    rstrLen (⟨['h', 'i'], 0, 1⟩ : Segment).text ≤ Segmenter.COMFORTABLE.max_chars := by
  have hmem : (⟨['h', 'i'], 0, 1⟩ : Segment) ∈
      Segmenter.COMFORTABLE.regroup zeroPenalty [⟨['h', 'i'], 0, 1⟩] := by
    have h1 : Segmenter.COMFORTABLE.regroup zeroPenalty [⟨['h', 'i'], 0, 1⟩] =
        [⟨['h', 'i'], 0, 1⟩] := by
      unfold Segmenter.regroup
      rw [if_neg (by simp)]
      rw [gapSplitRanges_single _ _ (fun j hj1 hj2 => by
        simp only [List.length_cons, List.length_nil] at hj2
        omega)]
      show Segmenter.COMFORTABLE.regroup_chunk zeroPenalty
        [⟨['h', 'i'], 0, 1⟩] ++ [] = [⟨['h', 'i'], 0, 1⟩]
      rw [regroup_chunk_midword _ _ _ (by simp) (fun i hi1 hi2 => by
        simp only [List.length_cons, List.length_nil] at hi2
        omega)]
      rw [if_neg (by
        push_neg
        refine ⟨?_, by decide, by simp [zeroPenalty]⟩
        show (1 : ℚ) - 0 ≤ Segmenter.COMFORTABLE.max_duration
        norm_num [Segmenter.COMFORTABLE])]
      rfl
    rw [h1]
    simp
  exact regroup_respects_limits Segmenter.COMFORTABLE zeroPenalty
    [⟨['h', 'i'], 0, 1⟩] ⟨['h', 'i'], 0, 1⟩ hmem

/-- Claim C8, amended: on a non-empty segment list whose every interior
boundary is mid-word (the left text ends in no sentence-end or soft-break
punctuation and the right text does not start with a space), whose silence
gaps never exceed `max_gap`, whose total span and character count are
within the hard limits `max_duration` and `max_chars`, and whose
whole-group `segment_penalty` value is finite in `f32` (the reading-speed
term `2^(chars/duration - target_cps) · 4` is neither evaluated at zero
duration nor overflowed — modelled as `segPenalty` returning `some`),
`Segmenter::regroup` returns exactly one subtitle covering all input
segments.  Without the hard-limit conditions the DP has no admissible edge,
and with a non-finite penalty the admitted edge never relaxes the sink
(`total < dp[j]` is false on `f32` infinities); in both cases the regrouper
returns no subtitle at all (see the counterexample). -/
theorem regroup_midword_single (cfg : Segmenter) (segPenalty : ℚ → ℕ → Option ℚ)
    (segments : List Segment) (hne : segments ≠ [])
    (hmid : ∀ i, 1 ≤ i → i < segments.length →
      endsWithAny (segD segments (i - 1)).text ['.', '!', '?'] = false ∧
      endsWithAny (segD segments (i - 1)).text [',', ':', ';', '-'] = false ∧
      startsWithSpace (segD segments i).text = false)
    (hgap : ∀ i, 1 ≤ i → i < segments.length →
      (segD segments i).start - (segD segments (i - 1)).stop ≤ cfg.max_gap)
    (hdur : (segD segments (segments.length - 1)).stop - (segD segments 0).start ≤
      cfg.max_duration)
    (hchars : charSum segments ≤ cfg.max_chars)
    (hfin : segPenalty
      ((segD segments (segments.length - 1)).stop - (segD segments 0).start)
      (charSum segments) ≠ none) :
    ∃ s, merge_segments segments = some s ∧
      cfg.regroup segPenalty segments = [s] ∧
      s.start = (segments.headD ⟨[], 0, 0⟩).start ∧
      s.stop = (segments.getLastD ⟨[], 0, 0⟩).stop := by
  have hmid' : ∀ i, 1 ≤ i → i < segments.length →
      Node.new i (segD segments (i - 1)) (segments.get? i) = none := by
    intro i h1 h2
    obtain ⟨ha, hb, hc⟩ := hmid i h1 h2
    have hget : segments.get? i = some (segD segments i) := by
      rw [List.get?_eq_getElem?, List.getElem?_eq_getElem h2, segD,
        List.getD_eq_getElem?_getD, List.getElem?_eq_getElem h2]
      rfl
    rw [hget]
    exact Node.new_none i _ _ ha hb hc
  obtain ⟨s, hms, hstart, hstop, _⟩ := merge_segments_spec segments hne
  refine ⟨s, hms, ?_, hstart, hstop⟩
  unfold Segmenter.regroup
  rw [if_neg (by simpa [List.isEmpty_iff] using hne)]
  rw [gapSplitRanges_single cfg segments
    (fun j hj1 hj2 => not_lt.mpr (hgap j hj1 hj2))]
  simp only [List.map_cons, List.map_nil, List.flatten]
  rw [List.drop_zero, Nat.sub_zero, List.take_length]
  rw [regroup_chunk_midword cfg segPenalty segments hne hmid']
  rw [if_neg (by push_neg; exact ⟨hdur, hchars, hfin⟩)]
  rw [hms]
  simp [Option.toList]

/-- Witness for `regroup_midword_single` at a concrete two-segment
mid-word input within all limits of the comfortable preset. -/
theorem regroup_midword_single_witness :
    ∃ s, merge_segments okMidword = some s ∧
      Segmenter.COMFORTABLE.regroup zeroPenalty okMidword = [s] ∧
      s.start = (okMidword.headD ⟨[], 0, 0⟩).start ∧
      s.stop = (okMidword.getLastD ⟨[], 0, 0⟩).stop := by
  refine regroup_midword_single Segmenter.COMFORTABLE zeroPenalty okMidword
    (by simp [okMidword]) ?_ ?_ ?_ ?_ (by simp [zeroPenalty])
  · intro i h1 h2
    simp only [okMidword, List.length_cons, List.length_nil] at h2
    have : i = 1 := by omega
    subst this
    refine ⟨by decide, by decide, by decide⟩
  · intro i h1 h2
    simp only [okMidword, List.length_cons, List.length_nil] at h2
    have : i = 1 := by omega
    subst this
    show (2 : ℚ) - 2 ≤ Segmenter.COMFORTABLE.max_gap
    norm_num [Segmenter.COMFORTABLE]
  · show (4 : ℚ) - 0 ≤ Segmenter.COMFORTABLE.max_duration
    norm_num [Segmenter.COMFORTABLE]
  · show charSum okMidword ≤ Segmenter.COMFORTABLE.max_chars
    decide

/-- Claim C8 as stated is refuted: two mid-word segments with zero silence
gap whose joint span exceeds `max_duration` (10 s > 7 s under the
comfortable preset) regroup to NO subtitle, not to one — the only DP edge is
rejected by the hard limit, the sink is unreachable, and backtracking emits
nothing. -/
theorem regroup_midword_cex :
    cexMidwordLong ≠ [] ∧
    (∀ i, 1 ≤ i → i < cexMidwordLong.length →
      endsWithAny (segD cexMidwordLong (i - 1)).text ['.', '!', '?'] = false ∧
      endsWithAny (segD cexMidwordLong (i - 1)).text [',', ':', ';', '-'] = false ∧
      startsWithSpace (segD cexMidwordLong i).text = false) ∧
    (∀ i, 1 ≤ i → i < cexMidwordLong.length →
      (segD cexMidwordLong i).start - (segD cexMidwordLong (i - 1)).stop ≤
        Segmenter.COMFORTABLE.max_gap) ∧
    Segmenter.COMFORTABLE.regroup zeroPenalty cexMidwordLong = [] := by
  refine ⟨by simp [cexMidwordLong], ?_, ?_, ?_⟩
  · intro i h1 h2
    simp only [cexMidwordLong, List.length_cons, List.length_nil] at h2
    have : i = 1 := by omega
    subst this
    refine ⟨by decide, by decide, by decide⟩
  · intro i h1 h2
    simp only [cexMidwordLong, List.length_cons, List.length_nil] at h2
    have : i = 1 := by omega
    subst this
    show (5 : ℚ) - 5 ≤ Segmenter.COMFORTABLE.max_gap
    norm_num [Segmenter.COMFORTABLE]
  · have hmid' : ∀ i, 1 ≤ i → i < cexMidwordLong.length →
        Node.new i (segD cexMidwordLong (i - 1)) (cexMidwordLong.get? i) = none := by
      intro i h1 h2
      simp only [cexMidwordLong, List.length_cons, List.length_nil] at h2
      have : i = 1 := by omega
      subst this
      decide
    unfold Segmenter.regroup
    rw [if_neg (by simp [cexMidwordLong])]
    rw [gapSplitRanges_single Segmenter.COMFORTABLE cexMidwordLong
      (fun j hj1 hj2 => by
        simp only [cexMidwordLong, List.length_cons, List.length_nil] at hj2
        have : j = 1 := by omega
        subst this
        show ¬ (Segmenter.COMFORTABLE.max_gap < (5 : ℚ) - 5)
        norm_num [Segmenter.COMFORTABLE])]
    simp only [List.map_cons, List.map_nil, List.flatten]
    rw [List.drop_zero, Nat.sub_zero]
    have hlen : cexMidwordLong.length = 2 := rfl
    rw [hlen]
    have htake : cexMidwordLong.take 2 = cexMidwordLong := rfl
    rw [htake]
    rw [regroup_chunk_midword Segmenter.COMFORTABLE zeroPenalty cexMidwordLong
      (by simp [cexMidwordLong]) hmid']
    rw [if_pos (Or.inl (by
      show Segmenter.COMFORTABLE.max_duration <
        (segD cexMidwordLong (cexMidwordLong.length - 1)).stop -
          (segD cexMidwordLong 0).start
      show (7 : ℚ) < 10 - 0
      norm_num))]
    simp

end Parakeet
